import Mathlib

/-!
# Verification of the `start` execution-tracking persistence core

A shallow embedding, in Lean 4, of the two layers of the repository:

* `src/lib/lino-objects-codec/src/lib.rs` — the structured-value codec
  (Links Notation encode/decode over `serde_json::Value`),
* `src/rust/src/lib/execution_store.rs` — the flat-file execution-record
  store built on it.

Pure Rust functions are translated to Lean functions; file-system state is
modelled as `Option String` (the primary file's contents, `none` = absent);
oracle inputs that the Rust code obtains from the environment (clock, pid
liveness probe, lock-acquisition outcome, RFC-3339 time parsing) are passed
explicitly as parameters.  Machine integers are modelled as `Int`/`Nat` with
explicit range conditions where the Rust types impose them.
-/

set_option maxHeartbeats 1000000

instance decEqExcept {ε α : Type} [DecidableEq ε] [DecidableEq α] :
    DecidableEq (Except ε α) := fun x y =>
  match x, y with
  | .ok a, .ok b =>
    match decEq a b with
    | isTrue h => isTrue (by rw [h])
    | isFalse h => isFalse (fun hc => h (Except.ok.inj hc))
  | .error a, .error b =>
    match decEq a b with
    | isTrue h => isTrue (by rw [h])
    | isFalse h => isFalse (fun hc => h (Except.error.inj hc))
  | .ok _, .error _ => isFalse (fun hc => Except.noConfusion hc)
  | .error _, .ok _ => isFalse (fun hc => Except.noConfusion hc)

namespace Start

/-! ## Character classes

`char::is_whitespace` in Rust tests the Unicode `White_Space` property.
The parser in the codec (`Parser::skip_whitespace`, `parse_id`) and
`str::trim` both use it.  The 25 `White_Space` code points: -/

def rustIsWhitespace (c : Char) : Bool :=
  c = '\u0009' || c = '\u000A' || c = '\u000B' || c = '\u000C' || c = '\u000D' ||
  c = ' ' || c = '\u0085' || c = ' ' || c = ' ' ||
  c = ' ' || c = ' ' || c = ' ' || c = ' ' || c = ' ' ||
  c = ' ' || c = ' ' || c = ' ' || c = ' ' || c = ' ' ||
  c = ' ' || c = ' ' || c = ' ' || c = ' ' || c = ' ' ||
  c = '　'

/-- A character that an unquoted identifier may contain: the parser's
`parse_id` stops at whitespace, `:`, `(` and `)`, and a token starting with
a quote is parsed as a quoted string. -/
def safeChar (c : Char) : Bool :=
  !rustIsWhitespace c && c ≠ ':' && c ≠ '(' && c ≠ ')' && c ≠ '"' && c ≠ '\''

/-! ## UTF-8 (`str::as_bytes` / `String::from_utf8`)

The codec base64-encodes the UTF-8 bytes of every string.  We model the
byte level faithfully: `utf8EncodeChar` is the UTF-8 encoding of a Unicode
scalar value, `utf8DecodeBytes` is a validating decoder equivalent to
`String::from_utf8` (rejecting stray/overlong/surrogate/out-of-range
sequences). Bytes are `Nat`s below 256. -/

def utf8EncodeChar (c : Char) : List Nat :=
  let v := c.toNat
  if v < 0x80 then [v]
  else if v < 0x800 then [0xC0 + v / 0x40, 0x80 + v % 0x40]
  else if v < 0x10000 then
    [0xE0 + v / 0x1000, 0x80 + v / 0x40 % 0x40, 0x80 + v % 0x40]
  else
    [0xF0 + v / 0x40000, 0x80 + v / 0x1000 % 0x40, 0x80 + v / 0x40 % 0x40,
      0x80 + v % 0x40]

def utf8Encode (s : List Char) : List Nat :=
  s.flatMap utf8EncodeChar

mutual

def utf8DecodeBytes : List Nat → Option (List Char)
  | [] => some []
  | b1 :: rest =>
    if b1 < 0x80 then
      (utf8DecodeBytes rest).map (Char.ofNat b1 :: ·)
    else if b1 < 0xC2 then none
    else if b1 < 0xE0 then utf8Dec2 b1 rest
    else if b1 < 0xF0 then utf8Dec3 b1 rest
    else if b1 < 0xF5 then utf8Dec4 b1 rest
    else none

def utf8Dec2 (b1 : Nat) : List Nat → Option (List Char)
  | b2 :: rest2 =>
    if 0x80 ≤ b2 ∧ b2 < 0xC0 then
      (utf8DecodeBytes rest2).map (Char.ofNat ((b1 - 0xC0) * 0x40 + (b2 - 0x80)) :: ·)
    else none
  | [] => none

def utf8Dec3 (b1 : Nat) : List Nat → Option (List Char)
  | b2 :: b3 :: rest3 =>
    if 0x80 ≤ b2 ∧ b2 < 0xC0 ∧ 0x80 ≤ b3 ∧ b3 < 0xC0 then
      let v := (b1 - 0xE0) * 0x1000 + (b2 - 0x80) * 0x40 + (b3 - 0x80)
      if 0x800 ≤ v ∧ ¬(0xD800 ≤ v ∧ v < 0xE000) then
        (utf8DecodeBytes rest3).map (Char.ofNat v :: ·)
      else none
    else none
  | _ => none

def utf8Dec4 (b1 : Nat) : List Nat → Option (List Char)
  | b2 :: b3 :: b4 :: rest4 =>
    if 0x80 ≤ b2 ∧ b2 < 0xC0 ∧ 0x80 ≤ b3 ∧ b3 < 0xC0 ∧ 0x80 ≤ b4 ∧ b4 < 0xC0 then
      let v := (b1 - 0xF0) * 0x40000 + (b2 - 0x80) * 0x1000 +
        (b3 - 0x80) * 0x40 + (b4 - 0x80)
      if 0x10000 ≤ v ∧ v < 0x110000 then
        (utf8DecodeBytes rest4).map (Char.ofNat v :: ·)
      else none
    else none
  | _ => none

end

theorem utf8DecodeBytes_nil : utf8DecodeBytes [] = some [] := by
  rw [utf8DecodeBytes.eq_def]

theorem utf8DecodeBytes_cons (b1 : Nat) (rest : List Nat) :
    utf8DecodeBytes (b1 :: rest) =
      if b1 < 0x80 then (utf8DecodeBytes rest).map (Char.ofNat b1 :: ·)
      else if b1 < 0xC2 then none
      else if b1 < 0xE0 then utf8Dec2 b1 rest
      else if b1 < 0xF0 then utf8Dec3 b1 rest
      else if b1 < 0xF5 then utf8Dec4 b1 rest
      else none := by
  rw [utf8DecodeBytes.eq_def]

theorem utf8DecodeBytes_encodeChar (c : Char) (bs : List Nat) :
    utf8DecodeBytes (utf8EncodeChar c ++ bs) =
      (utf8DecodeBytes bs).map (c :: ·) := by
  have hvalid : c.val.isValidChar := c.valid
  have hv : c.toNat < 0xD800 ∨ (0xE000 ≤ c.toNat ∧ c.toNat < 0x110000) := by
    rcases hvalid with h | ⟨h1, h2⟩
    · exact Or.inl h
    · exact Or.inr ⟨h1, h2⟩
  have hofNat : Char.ofNat c.toNat = c := Char.ofNat_toNat c
  unfold utf8EncodeChar
  by_cases h1 : c.toNat < 0x80
  · simp only [h1, if_pos]
    rw [List.cons_append, List.nil_append, utf8DecodeBytes_cons]
    simp only [h1, if_pos, hofNat]
  · by_cases h2 : c.toNat < 0x800
    · rw [if_neg h1, if_pos h2, List.cons_append, List.cons_append, List.nil_append,
        utf8DecodeBytes_cons]
      have e1 : ¬ (0xC0 + c.toNat / 0x40 < 0x80) := by omega
      have e2 : ¬ (0xC0 + c.toNat / 0x40 < 0xC2) := by omega
      have e3 : 0xC0 + c.toNat / 0x40 < 0xE0 := by omega
      have e4 : 0x80 ≤ 0x80 + c.toNat % 0x40 ∧ 0x80 + c.toNat % 0x40 < 0xC0 := by omega
      rw [if_neg e1, if_neg e2, if_pos e3, utf8Dec2, if_pos e4]
      have : (0xC0 + c.toNat / 0x40 - 0xC0) * 0x40 + (0x80 + c.toNat % 0x40 - 0x80)
          = c.toNat := by omega
      rw [this, hofNat]
    · by_cases h3 : c.toNat < 0x10000
      · rw [if_neg h1, if_neg h2, if_pos h3, List.cons_append, List.cons_append,
          List.cons_append, List.nil_append, utf8DecodeBytes_cons]
        have e1 : ¬ (0xE0 + c.toNat / 0x1000 < 0x80) := by omega
        have e2 : ¬ (0xE0 + c.toNat / 0x1000 < 0xC2) := by omega
        have e3 : ¬ (0xE0 + c.toNat / 0x1000 < 0xE0) := by omega
        have e4 : 0xE0 + c.toNat / 0x1000 < 0xF0 := by omega
        have e5 : 0x80 ≤ 0x80 + c.toNat / 0x40 % 0x40 ∧ 0x80 + c.toNat / 0x40 % 0x40 < 0xC0 ∧
            0x80 ≤ 0x80 + c.toNat % 0x40 ∧ 0x80 + c.toNat % 0x40 < 0xC0 := by omega
        rw [if_neg e1, if_neg e2, if_neg e3, if_pos e4, utf8Dec3, if_pos e5]
        have ev : (0xE0 + c.toNat / 0x1000 - 0xE0) * 0x1000 +
            (0x80 + c.toNat / 0x40 % 0x40 - 0x80) * 0x40 + (0x80 + c.toNat % 0x40 - 0x80)
            = c.toNat := by omega
        have e6 : 0x800 ≤ c.toNat ∧ ¬(0xD800 ≤ c.toNat ∧ c.toNat < 0xE000) := by omega
        simp only [ev]
        rw [if_pos e6, hofNat]
      · have h4 : c.toNat < 0x110000 := by
          rcases hv with h | ⟨_, h⟩
          · exact Nat.lt_trans h (by norm_num)
          · exact h
        rw [if_neg h1, if_neg h2, if_neg h3, List.cons_append, List.cons_append,
          List.cons_append, List.cons_append, List.nil_append, utf8DecodeBytes_cons]
        have e1 : ¬ (0xF0 + c.toNat / 0x40000 < 0x80) := by omega
        have e2 : ¬ (0xF0 + c.toNat / 0x40000 < 0xC2) := by omega
        have e3 : ¬ (0xF0 + c.toNat / 0x40000 < 0xE0) := by omega
        have e4 : ¬ (0xF0 + c.toNat / 0x40000 < 0xF0) := by omega
        have e5 : 0xF0 + c.toNat / 0x40000 < 0xF5 := by omega
        have e6 : 0x80 ≤ 0x80 + c.toNat / 0x1000 % 0x40 ∧
            0x80 + c.toNat / 0x1000 % 0x40 < 0xC0 ∧
            0x80 ≤ 0x80 + c.toNat / 0x40 % 0x40 ∧ 0x80 + c.toNat / 0x40 % 0x40 < 0xC0 ∧
            0x80 ≤ 0x80 + c.toNat % 0x40 ∧ 0x80 + c.toNat % 0x40 < 0xC0 := by omega
        rw [if_neg e1, if_neg e2, if_neg e3, if_neg e4, if_pos e5, utf8Dec4, if_pos e6]
        have ev : (0xF0 + c.toNat / 0x40000 - 0xF0) * 0x40000 +
            (0x80 + c.toNat / 0x1000 % 0x40 - 0x80) * 0x1000 +
            (0x80 + c.toNat / 0x40 % 0x40 - 0x80) * 0x40 + (0x80 + c.toNat % 0x40 - 0x80)
            = c.toNat := by omega
        have e7 : 0x10000 ≤ c.toNat ∧ c.toNat < 0x110000 := by omega
        simp only [ev]
        rw [if_pos e7, hofNat]

theorem utf8DecodeBytes_utf8Encode (s : List Char) :
    utf8DecodeBytes (utf8Encode s) = some s := by
  induction s with
  | nil => rfl
  | cons c cs ih =>
    show utf8DecodeBytes (utf8EncodeChar c ++ utf8Encode cs) = _
    rw [utf8DecodeBytes_encodeChar, ih, Option.map_some']

theorem utf8EncodeChar_lt_256 (c : Char) : ∀ b ∈ utf8EncodeChar c, b < 256 := by
  have hvalid : c.val.isValidChar := c.valid
  have hv : c.toNat < 0x110000 := by
    rcases hvalid with h | ⟨_, h2⟩
    · exact Nat.lt_trans h (by norm_num)
    · exact h2
  intro b hb
  unfold utf8EncodeChar at hb
  by_cases h1 : c.toNat < 0x80
  · simp only [h1, if_pos, List.mem_singleton] at hb
    omega
  · by_cases h2 : c.toNat < 0x800
    · simp only [h1, h2, if_neg, if_pos] at hb
      fin_cases hb <;> omega
    · by_cases h3 : c.toNat < 0x10000
      · simp only [h1, h2, h3, if_neg, if_pos] at hb
        fin_cases hb <;> omega
      · simp only [h1, h2, h3, if_neg] at hb
        fin_cases hb <;> omega

theorem utf8Encode_lt_256 (s : List Char) : ∀ b ∈ utf8Encode s, b < 256 := by
  intro b hb
  unfold utf8Encode at hb
  rw [List.mem_flatMap] at hb
  obtain ⟨c, _, hc⟩ := hb
  exact utf8EncodeChar_lt_256 c b hc

theorem utf8EncodeChar_ne_nil (c : Char) : utf8EncodeChar c ≠ [] := by
  unfold utf8EncodeChar
  by_cases h1 : c.toNat < 0x80
  · simp [h1]
  · by_cases h2 : c.toNat < 0x800
    · simp [h1, h2]
    · by_cases h3 : c.toNat < 0x10000
      · simp [h1, h2, h3]
      · simp [h1, h2, h3]

theorem utf8Encode_eq_nil_iff (s : List Char) : utf8Encode s = [] ↔ s = [] := by
  cases s with
  | nil => simp [utf8Encode]
  | cons c cs =>
    simp only [utf8Encode, List.flatMap_cons]
    constructor
    · intro h
      rw [List.append_eq_nil] at h
      exact absurd h.1 (utf8EncodeChar_ne_nil c)
    · intro h
      exact absurd h (List.cons_ne_nil c cs)

/-! ## Base64 (the `base64` crate's `STANDARD` engine)

`ObjectCodec` encodes string payloads with `BASE64.encode` and decodes with
`BASE64.decode`.  The `STANDARD` engine uses the `A–Z a–z 0–9 + /` alphabet
with mandatory `=` padding and rejects non-canonical trailing bits. -/

def b64Alphabet : List Char :=
  ['A','B','C','D','E','F','G','H','I','J','K','L','M','N','O','P','Q','R','S','T',
   'U','V','W','X','Y','Z','a','b','c','d','e','f','g','h','i','j','k','l','m','n',
   'o','p','q','r','s','t','u','v','w','x','y','z','0','1','2','3','4','5','6','7',
   '8','9','+','/']

def b64EncDigit (d : Nat) : Char := b64Alphabet.getD d 'A'

def b64DecDigitAux (c : Char) : List Char → Nat → Option Nat
  | [], _ => none
  | a :: rest, i => if c = a then some i else b64DecDigitAux c rest (i + 1)

def b64DecDigit (c : Char) : Option Nat := b64DecDigitAux c b64Alphabet 0

def b64Encode : List Nat → List Char
  | [] => []
  | [b1] => [b64EncDigit (b1 / 4), b64EncDigit (b1 % 4 * 16), '=', '=']
  | [b1, b2] =>
    [b64EncDigit (b1 / 4), b64EncDigit (b1 % 4 * 16 + b2 / 16),
      b64EncDigit (b2 % 16 * 4), '=']
  | b1 :: b2 :: b3 :: rest =>
    b64EncDigit (b1 / 4) :: b64EncDigit (b1 % 4 * 16 + b2 / 16) ::
      b64EncDigit (b2 % 16 * 4 + b3 / 64) :: b64EncDigit (b3 % 64) ::
      b64Encode rest

def b64Decode : List Char → Option (List Nat)
  | [] => some []
  | c1 :: c2 :: c3 :: c4 :: rest =>
    if rest.isEmpty then
      if c3 = '=' ∧ c4 = '=' then
        match b64DecDigit c1, b64DecDigit c2 with
        | some d1, some d2 =>
          -- canonical-padding check: trailing bits of the second digit are zero
          if d2 % 16 = 0 then some [d1 * 4 + d2 / 16] else none
        | _, _ => none
      else if c4 = '=' then
        match b64DecDigit c1, b64DecDigit c2, b64DecDigit c3 with
        | some d1, some d2, some d3 =>
          if d3 % 4 = 0 then some [d1 * 4 + d2 / 16, d2 % 16 * 16 + d3 / 4] else none
        | _, _, _ => none
      else
        match b64DecDigit c1, b64DecDigit c2, b64DecDigit c3, b64DecDigit c4 with
        | some d1, some d2, some d3, some d4 =>
          some [d1 * 4 + d2 / 16, d2 % 16 * 16 + d3 / 4, d3 % 4 * 64 + d4]
        | _, _, _, _ => none
    else
      match b64DecDigit c1, b64DecDigit c2, b64DecDigit c3, b64DecDigit c4 with
      | some d1, some d2, some d3, some d4 =>
        (b64Decode rest).map
          ([d1 * 4 + d2 / 16, d2 % 16 * 16 + d3 / 4, d3 % 4 * 64 + d4] ++ ·)
      | _, _, _, _ => none
  | _ => none

theorem b64DecDigit_encDigit (d : Nat) (h : d < 64) :
    b64DecDigit (b64EncDigit d) = some d := by
  revert h
  revert d
  decide

theorem b64EncDigit_ne_pad (d : Nat) (h : d < 64) : b64EncDigit d ≠ '=' := by
  revert h
  revert d
  decide

theorem b64Encode_ne_nil (bs : List Nat) (h : bs ≠ []) : b64Encode bs ≠ [] := by
  match bs with
  | [] => exact absurd rfl h
  | [b1] => simp [b64Encode]
  | [b1, b2] => simp [b64Encode]
  | b1 :: b2 :: b3 :: rest => simp [b64Encode]

theorem b64Decode_encode (bs : List Nat) (h : ∀ b ∈ bs, b < 256) :
    b64Decode (b64Encode bs) = some bs := by
  match bs with
  | [] => rfl
  | [b1] =>
    have hb1 : b1 < 256 := h b1 (by simp)
    have h1 : b1 / 4 < 64 := by omega
    have h2 : b1 % 4 * 16 < 64 := by omega
    rw [b64Encode, b64Decode]
    simp only [List.isEmpty_nil, if_true, and_self, if_pos,
      b64DecDigit_encDigit _ h1, b64DecDigit_encDigit _ h2]
    have e1 : b1 % 4 * 16 % 16 = 0 := by omega
    rw [if_pos e1]
    have e2 : b1 / 4 * 4 + b1 % 4 * 16 / 16 = b1 := by omega
    rw [e2]
  | [b1, b2] =>
    have hb1 : b1 < 256 := h b1 (by simp)
    have hb2 : b2 < 256 := h b2 (by simp)
    have h1 : b1 / 4 < 64 := by omega
    have h2 : b1 % 4 * 16 + b2 / 16 < 64 := by omega
    have h3 : b2 % 16 * 4 < 64 := by omega
    rw [b64Encode, b64Decode]
    have e1 : b2 % 16 * 4 % 4 = 0 := by omega
    have e2 : b1 / 4 * 4 + (b1 % 4 * 16 + b2 / 16) / 16 = b1 := by omega
    have e3 : (b1 % 4 * 16 + b2 / 16) % 16 * 16 + b2 % 16 * 4 / 4 = b2 := by omega
    simp only [List.isEmpty_nil, if_true, if_pos rfl,
      b64DecDigit_encDigit _ h1, b64DecDigit_encDigit _ h2, b64DecDigit_encDigit _ h3,
      e1, e2, e3]
    have hne : ¬ (b64EncDigit (b2 % 16 * 4) = '=' ∧ True) := by
      intro hc
      exact b64EncDigit_ne_pad _ h3 hc.1
    rw [if_neg hne]
  | b1 :: b2 :: b3 :: rest =>
    have hb1 : b1 < 256 := h b1 (by simp)
    have hb2 : b2 < 256 := h b2 (by simp)
    have hb3 : b3 < 256 := h b3 (by simp)
    have h1 : b1 / 4 < 64 := by omega
    have h2 : b1 % 4 * 16 + b2 / 16 < 64 := by omega
    have h3 : b2 % 16 * 4 + b3 / 64 < 64 := by omega
    have h4 : b3 % 64 < 64 := by omega
    have ih := b64Decode_encode rest (fun b hb => h b (by simp [hb]))
    rw [b64Encode]
    cases hrest : b64Encode rest with
    | nil =>
      -- rest must be [] (b64Encode is nil only on nil input)
      have hrnil : rest = [] := by
        by_contra hne
        exact b64Encode_ne_nil rest hne hrest
      subst hrnil
      rw [b64Decode]
      simp only [List.isEmpty_nil, if_true,
        b64DecDigit_encDigit _ h1, b64DecDigit_encDigit _ h2, b64DecDigit_encDigit _ h3,
        b64DecDigit_encDigit _ h4]
      have hne3 : ¬ (b64EncDigit (b2 % 16 * 4 + b3 / 64) = '=' ∧ b64EncDigit (b3 % 64) = '=') := by
        intro hc
        exact b64EncDigit_ne_pad _ h3 hc.1
      have hne4 : b64EncDigit (b3 % 64) ≠ '=' := b64EncDigit_ne_pad _ h4
      rw [if_neg hne3, if_neg hne4]
      have e1 : b1 / 4 * 4 + (b1 % 4 * 16 + b2 / 16) / 16 = b1 := by omega
      have e2 : (b1 % 4 * 16 + b2 / 16) % 16 * 16 + (b2 % 16 * 4 + b3 / 64) / 4 = b2 := by omega
      have e3 : (b2 % 16 * 4 + b3 / 64) % 4 * 64 + b3 % 64 = b3 := by omega
      rw [e1, e2, e3]
    | cons x xs =>
      rw [b64Decode]
      have hne : (x :: xs).isEmpty = false := rfl
      rw [hne]
      simp only [Bool.false_eq_true, if_false,
        b64DecDigit_encDigit _ h1, b64DecDigit_encDigit _ h2, b64DecDigit_encDigit _ h3,
        b64DecDigit_encDigit _ h4]
      rw [← hrest, ih]
      have e1 : b1 / 4 * 4 + (b1 % 4 * 16 + b2 / 16) / 16 = b1 := by omega
      have e2 : (b1 % 4 * 16 + b2 / 16) % 16 * 16 + (b2 % 16 * 4 + b3 / 64) / 4 = b2 := by omega
      have e3 : (b2 % 16 * 4 + b3 / 64) % 4 * 64 + b3 % 64 = b3 := by omega
      rw [e1, e2, e3]
      rfl

/-- Every character the base64 encoder can emit (alphabet, the out-of-range
default `A`, or padding) is a safe unquoted-identifier character for the
Links Notation parser. -/
theorem b64EncDigit_safe_any (d : Nat) : safeChar (b64EncDigit d) = true := by
  by_cases h : d < 64
  · revert h
    revert d
    decide
  · unfold b64EncDigit
    rw [List.getD_eq_default]
    · decide
    · simp only [b64Alphabet, List.length]
      omega

theorem b64Encode_safe (bs : List Nat) : ∀ c ∈ b64Encode bs, safeChar c = true := by
  match bs with
  | [] => intro c hc; cases hc
  | [b1] =>
    intro c hc
    rw [b64Encode] at hc
    fin_cases hc
    · exact b64EncDigit_safe_any _
    · exact b64EncDigit_safe_any _
    · decide
    · decide
  | [b1, b2] =>
    intro c hc
    rw [b64Encode] at hc
    fin_cases hc
    · exact b64EncDigit_safe_any _
    · exact b64EncDigit_safe_any _
    · exact b64EncDigit_safe_any _
    · decide
  | b1 :: b2 :: b3 :: rest =>
    intro c hc
    rw [b64Encode] at hc
    simp only [List.mem_cons] at hc
    rcases hc with rfl | rfl | rfl | rfl | hc
    · exact b64EncDigit_safe_any _
    · exact b64EncDigit_safe_any _
    · exact b64EncDigit_safe_any _
    · exact b64EncDigit_safe_any _
    · exact b64Encode_safe rest c hc

/-! ## Decimal integers (`i64` `Display` and `str::parse::<i64>`)

`encode_value` renders a `serde_json` integer with `n.to_string()` and the
`INT` decode branch parses it back with `s.parse::<i64>()`. -/

def digitChar (k : Nat) : Char := Char.ofNat (48 + k)

def isDigitCharB (c : Char) : Bool := 48 ≤ c.toNat && c.toNat ≤ 57

def natToDigitsAux (fuel : Nat) (n : Nat) : List Char :=
  match fuel with
  | 0 => []
  | fuel + 1 =>
    if n < 10 then [digitChar n]
    else natToDigitsAux fuel (n / 10) ++ [digitChar (n % 10)]

def natToString (n : Nat) : String := ⟨natToDigitsAux (n + 1) n⟩

/-- Decimal rendering of an `i64` value, as `i64`'s `Display` produces it:
an optional leading `-`, then the digits of the magnitude. -/
def intToString (n : Int) : String :=
  if n < 0 then "-" ++ natToString (-n).toNat else natToString n.toNat

/-- Accumulating decimal evaluator used to model `str::parse::<i64>`:
`none` when a non-digit is hit. -/
def digitsToNat : List Char → Nat → Option Nat
  | [], acc => some acc
  | c :: rest, acc =>
    if isDigitCharB c then digitsToNat rest (acc * 10 + (c.toNat - 48)) else none

def parseI64Digits (l : List Char) (neg : Bool) : Except String Int :=
  if l.isEmpty then .error "invalid digit found in string"
  else
    match digitsToNat l 0 with
    | none => .error "invalid digit found in string"
    | some v =>
      if neg then
        if v ≤ 2 ^ 63 then .ok (-(v : Int))
        else .error "number too large to fit in target type"
      else
        if v < 2 ^ 63 then .ok (v : Int)
        else .error "number too large to fit in target type"

def parseI64List : List Char → Except String Int
  | [] => .error "cannot parse integer from empty string"
  | c :: rest =>
    if c = '+' then parseI64Digits rest false
    else if c = '-' then parseI64Digits rest true
    else parseI64Digits (c :: rest) false

/-- `str::parse::<i64>`: optional `+`/`-` sign, then one or more decimal
digits, rejecting overflow past the `i64` range. -/
def parseI64 (s : String) : Except String Int :=
  parseI64List s.data

theorem parseI64List_cons (c : Char) (rest : List Char) :
    parseI64List (c :: rest) =
      if c = '+' then parseI64Digits rest false
      else if c = '-' then parseI64Digits rest true
      else parseI64Digits (c :: rest) false := rfl

theorem digitsToNat_nil (acc : Nat) : digitsToNat [] acc = some acc := rfl

theorem digitsToNat_cons (c : Char) (rest : List Char) (acc : Nat) :
    digitsToNat (c :: rest) acc =
      if isDigitCharB c then digitsToNat rest (acc * 10 + (c.toNat - 48)) else none := rfl

theorem digitChar_toNat (k : Nat) (h : k < 10) : (digitChar k).toNat = 48 + k := by
  revert h
  revert k
  decide

theorem digitChar_isDigit (k : Nat) (h : k < 10) : isDigitCharB (digitChar k) = true := by
  revert h
  revert k
  decide

theorem digitChar_safe (k : Nat) (h : k < 10) : safeChar (digitChar k) = true := by
  revert h
  revert k
  decide

theorem natToDigitsAux_ne_nil (fuel n : Nat) (h : 0 < fuel) :
    natToDigitsAux fuel n ≠ [] := by
  match fuel with
  | 0 => omega
  | fuel + 1 =>
    rw [natToDigitsAux]
    by_cases hn : n < 10
    · simp [hn]
    · simp [hn]

theorem natToDigitsAux_mem (fuel n : Nat) :
    ∀ c ∈ natToDigitsAux fuel n, ∃ k, k < 10 ∧ c = digitChar k := by
  match fuel with
  | 0 => intro c hc; cases hc
  | fuel + 1 =>
    intro c hc
    rw [natToDigitsAux] at hc
    by_cases hn : n < 10
    · rw [if_pos hn] at hc
      rcases List.mem_singleton.mp hc with rfl
      exact ⟨n, hn, rfl⟩
    · rw [if_neg hn] at hc
      rcases List.mem_append.mp hc with h | h
      · exact natToDigitsAux_mem fuel (n / 10) c h
      · rcases List.mem_singleton.mp h with rfl
        exact ⟨n % 10, by omega, rfl⟩

theorem digitsToNat_append (a b : List Char) (acc : Nat) :
    digitsToNat (a ++ b) acc = (digitsToNat a acc).bind (fun v => digitsToNat b v) := by
  induction a generalizing acc with
  | nil => simp [digitsToNat_nil]
  | cons c rest ih =>
    rw [List.cons_append, digitsToNat_cons, digitsToNat_cons]
    by_cases hc : isDigitCharB c
    · rw [if_pos hc, if_pos hc, ih]
    · rw [if_neg hc, if_neg hc]
      rfl

theorem digitsToNat_natToDigitsAux (fuel n acc : Nat) (h : n < fuel) :
    digitsToNat (natToDigitsAux fuel n) acc =
      some (acc * 10 ^ (natToDigitsAux fuel n).length + n) := by
  match fuel with
  | 0 => omega
  | fuel + 1 =>
    rw [natToDigitsAux]
    by_cases hn : n < 10
    · rw [if_pos hn]
      rw [digitsToNat_cons, if_pos (digitChar_isDigit n hn), digitsToNat_nil]
      rw [digitChar_toNat n hn]
      simp only [List.length_singleton, pow_one, Option.some.injEq]
      omega
    · rw [if_neg hn]
      have hlt : n / 10 < fuel := by omega
      rw [digitsToNat_append, digitsToNat_natToDigitsAux fuel (n / 10) acc hlt,
        Option.some_bind]
      have h10 : n % 10 < 10 := by omega
      rw [digitsToNat_cons, if_pos (digitChar_isDigit _ h10), digitsToNat_nil]
      rw [digitChar_toNat _ h10]
      simp only [List.length_append, List.length_singleton, Option.some.injEq]
      rw [pow_succ]
      have : acc * (10 ^ (natToDigitsAux fuel (n / 10)).length * 10) + n
          = (acc * 10 ^ (natToDigitsAux fuel (n / 10)).length + n / 10) * 10 + (n % 10) := by
        ring_nf
        omega
      omega

theorem digitsToNat_natToString (n : Nat) :
    digitsToNat (natToString n).data 0 = some n := by
  have := digitsToNat_natToDigitsAux (n + 1) n 0 (by omega)
  simpa [natToString] using this

theorem natToString_ne_nil (n : Nat) : (natToString n).data ≠ [] :=
  natToDigitsAux_ne_nil (n + 1) n (by omega)

theorem natToString_head_digit (n : Nat) :
    ∀ c ∈ (natToString n).data, ∃ k, k < 10 ∧ c = digitChar k :=
  natToDigitsAux_mem (n + 1) n

theorem digitChar_ne_plus (k : Nat) (h : k < 10) : digitChar k ≠ '+' := by
  revert h
  revert k
  decide

theorem digitChar_ne_minus (k : Nat) (h : k < 10) : digitChar k ≠ '-' := by
  revert h
  revert k
  decide

theorem parseI64_intToString (n : Int) (h1 : -(2 ^ 63) ≤ n) (h2 : n < 2 ^ 63) :
    parseI64 (intToString n) = .ok n := by
  by_cases hneg : n < 0
  · rw [intToString, if_pos hneg]
    have hdata : ("-" ++ natToString (-n).toNat).data = '-' :: (natToString (-n).toNat).data := by
      simp [String.data_append]
    rw [parseI64]
    rw [hdata, parseI64List_cons]
    rw [if_neg (by decide : ¬ ('-' : Char) = '+'), if_pos rfl]
    unfold parseI64Digits
    have hne : ((natToString (-n).toNat).data).isEmpty = false := by
      cases hd : (natToString (-n).toNat).data with
      | nil => exact absurd hd (natToString_ne_nil _)
      | cons x xs => rfl
    rw [hne]
    simp only [Bool.false_eq_true, if_false, digitsToNat_natToString]
    have hle : (-n).toNat ≤ 2 ^ 63 := by omega
    rw [if_pos hle]
    have htn : ((-n).toNat : Int) = -n := Int.toNat_of_nonneg (by omega)
    rw [htn, neg_neg]
    simp
  · rw [intToString, if_neg hneg]
    have hnn : 0 ≤ n := by omega
    -- the first character is a digit, so neither the `+` nor the `-` branch fires
    cases hd : (natToString n.toNat).data with
    | nil => exact absurd hd (natToString_ne_nil _)
    | cons x xs =>
      obtain ⟨k, hk, rfl⟩ := natToString_head_digit n.toNat x (by rw [hd]; simp)
      rw [parseI64, hd, parseI64List_cons]
      rw [if_neg (digitChar_ne_plus k hk), if_neg (digitChar_ne_minus k hk)]
      unfold parseI64Digits
      have hne : ((digitChar k :: xs)).isEmpty = false := rfl
      rw [hne]
      have hd0 : digitsToNat (digitChar k :: xs) 0 = some n.toNat := by
        rw [← hd]
        exact digitsToNat_natToString n.toNat
      simp only [Bool.false_eq_true, if_false, hd0]
      have hlt : n.toNat < 2 ^ 63 := by omega
      rw [if_pos hlt]
      rw [Int.toNat_of_nonneg hnn]

/-! ## Links Notation tree (`Link` in `lino-objects-codec`) -/

mutual
inductive Link where
  | mk (id : Option String) (values : LinkList)
  deriving DecidableEq
inductive LinkList where
  | nil
  | cons (hd : Link) (tl : LinkList)
  deriving DecidableEq
end

def Link.id : Link → Option String
  | .mk i _ => i

def Link.values : Link → LinkList
  | .mk _ v => v

/-- `Link::new(id)` -/
def Link.new (i : String) : Link := .mk (some i) .nil

/-- `Link::empty()` -/
def Link.empty : Link := .mk none .nil

def LinkList.toList : LinkList → List Link
  | .nil => []
  | .cons hd tl => hd :: tl.toList

def LinkList.length : LinkList → Nat
  | .nil => 0
  | .cons _ tl => tl.length + 1

/-- `values.get(1)` as used by the scalar decode branches. -/
def LinkList.get1 : LinkList → Option Link
  | .cons _ (.cons x _) => some x
  | _ => none

/-! ### `Link::escape_reference` -/

/-- `reference.replace('\'', "\\'")` (single-character pattern). -/
def escQuoteChars : List Char → List Char
  | [] => []
  | c :: rest =>
    if c = '\'' then '\\' :: '\'' :: escQuoteChars rest else c :: escQuoteChars rest

def escape_reference (r : String) : String :=
  if r.data.isEmpty then ""
  else
    let hasS := r.data.contains '\''
    let hasD := r.data.contains '"'
    let needsQ := r.data.contains ':' || r.data.contains '(' || r.data.contains ')' ||
      r.data.contains ' ' || r.data.contains '\t' || r.data.contains '\n' ||
      r.data.contains '\r' || hasS || hasD
    if hasS && hasD then "'" ++ String.mk (escQuoteChars r.data) ++ "'"
    else if hasD then "'" ++ r ++ "'"
    else if hasS then "\"" ++ r ++ "\""
    else if needsQ then "'" ++ r ++ "'"
    else r

/-! ### `Link::format` -/

/-- `join(" ")` over already-rendered parts, as `Vec::join` produces it. -/
def joinSpace : List String → String
  | [] => ""
  | [x] => x
  | x :: xs => x ++ " " ++ joinSpace xs

mutual

/-- One element of the `values` iterator inside `Link::format`: a child with
no nested values renders as its (escaped) id — or the empty string when it
has no id — and a child with values renders via the recursive `format`. -/
def fmtChild : Link → String
  | .mk (some i) .nil => escape_reference i
  | .mk none .nil => ""
  | .mk none (.cons h t) => "(" ++ joinSpace (fmtChild h :: fmtValues t) ++ ")"
  | .mk (some i) (.cons h t) =>
    "(" ++ escape_reference i ++ ": " ++ joinSpace (fmtChild h :: fmtValues t) ++ ")"

def fmtValues : LinkList → List String
  | .nil => []
  | .cons hd tl => fmtChild hd :: fmtValues tl

end

/-- `Link::format`. -/
def Link.format : Link → String
  | .mk none .nil => "()"
  | .mk (some i) .nil => "(" ++ escape_reference i ++ ")"
  | .mk none (.cons h t) => "(" ++ joinSpace (fmtChild h :: fmtValues t) ++ ")"
  | .mk (some i) (.cons h t) =>
    "(" ++ escape_reference i ++ ": " ++ joinSpace (fmtChild h :: fmtValues t) ++ ")"

/-! ## Structured values (`serde_json::Value` as the codec uses it)

`Value::Number` holds an `i64`/`u64` or a finite `f64`.  We model the
integer case as an `Int` (the representability predicate below restricts it
to the `i64` range the spec claims), and the float case by its decimal
token: `encode_value` renders a float with `n.to_string()` (the shortest
round-trip decimal of a finite `f64`) and the decode side re-parses that
token; the identity `f64::from_str (f64::to_string x) = x` for finite `x`
is a property of Rust's float formatting that we internalise by carrying
the canonical token itself.  Maps are ordered key/value lists, kept in the
order `serde_json`'s map iterates them (the spec fixes insertion order,
"order preserved for stable re-encoding"). -/

mutual
inductive JValue where
  | null
  | bool (b : Bool)
  | int (n : Int)
  | float (tok : String)
  | str (s : String)
  | arr (items : JList)
  | obj (entries : JObj)
  deriving DecidableEq
inductive JList where
  | nil
  | cons (hd : JValue) (tl : JList)
  deriving DecidableEq
inductive JObj where
  | nil
  | cons (key : String) (val : JValue) (tl : JObj)
  deriving DecidableEq
end

def JList.toList : JList → List JValue
  | .nil => []
  | .cons hd tl => hd :: tl.toList

def JObj.keys : JObj → List String
  | .nil => []
  | .cons k _ tl => k :: tl.keys

/-! ### Float tokens

Syntactic model of the decimal strings `str::parse::<f64>` accepts as
finite numbers: optional sign, digits with at most one `.` (at least one
digit), optional `e`/`E` exponent.  (`inf`/`nan` spellings and
overflowing exponents — which Rust parses to non-finite values that
`Number::from_f64` then maps to `Null` — fall outside this grammar and are
modelled by `floatNonfiniteSpelling` below.) -/

def takeDigits : List Char → Nat × List Char
  | [] => (0, [])
  | c :: rest =>
    if isDigitCharB c then
      let (n, r) := takeDigits rest
      (n + 1, r)
    else (0, c :: rest)

def parseMantissa (l : List Char) : Option (List Char) :=
  let (n1, r1) := takeDigits l
  match r1 with
  | '.' :: r2 =>
    let (n2, r3) := takeDigits r2
    if n1 + n2 > 0 then some r3 else none
  | _ => if n1 > 0 then some r1 else none

def expOk (l : List Char) : Bool :=
  let l2 := match l with
    | '+' :: r => r
    | '-' :: r => r
    | r => r
  let (n, rest) := takeDigits l2
  n > 0 && rest.isEmpty

def floatSyntaxOk (s : String) : Bool :=
  let l := match s.data with
    | '+' :: r => r
    | '-' :: r => r
    | l => l
  match parseMantissa l with
  | none => false
  | some [] => true
  | some ('e' :: r) => expOk r
  | some ('E' :: r) => expOk r
  | some _ => false

/-- Spellings `str::parse::<f64>` accepts but that denote non-finite values
(`inf`, `infinity`, `nan`, case-insensitive, optionally signed). -/
def floatNonfiniteSpelling (s : String) : Bool :=
  let l := match s.data with
    | '+' :: r => r
    | '-' :: r => r
    | l => l
  let low := l.map Char.toLower
  low = "inf".data || low = "infinity".data || low = "nan".data

def floatCharOk (c : Char) : Bool :=
  isDigitCharB c || c = '.' || c = 'e' || c = 'E' || c = '+' || c = '-'

/-! ### Representability (`Wf`)

The values the round-trip claim quantifies over: integers in the `i64`
range, float tokens that are canonical finite decimals, maps with unique
string keys. -/

mutual
def JValue.wf : JValue → Bool
  | .null => true
  | .bool _ => true
  | .int n => decide (-(2 ^ 63) ≤ n) && decide (n < 2 ^ 63)
  | .float tok => !tok.data.isEmpty && tok.data.all floatCharOk && floatSyntaxOk tok
  | .str _ => true
  | .arr items => items.wfL
  | .obj entries => decide entries.keys.Nodup && entries.wfO
def JList.wfL : JList → Bool
  | .nil => true
  | .cons hd tl => hd.wf && tl.wfL
def JObj.wfO : JObj → Bool
  | .nil => true
  | .cons _ v tl => v.wf && tl.wfO
end

/-! ### `ObjectCodec::encode_value` and `ObjectCodec::encode`

The codec's `encode_memo`/`encode_counter`/`needs_id` state is dead: it is
cleared by `reset`, never written by `encode_value`, and never read, so the
encoder is a pure function of the value. -/

def b64OfString (s : String) : String :=
  String.mk (b64Encode (utf8Encode s.data))

/-- The `Value::String` arm of `encode_value`, also used for every map key
(`encode_value(&Value::String(key.clone()))`). -/
def encodeStr (s : String) : Link :=
  .mk none (.cons (Link.new "str") (.cons (Link.new (b64OfString s)) .nil))

mutual

def encodeValue : JValue → Link
  | .null => .mk none (.cons (Link.new "null") .nil)
  | .bool b =>
    .mk none (.cons (Link.new "bool")
      (.cons (Link.new (if b then "true" else "false")) .nil))
  | .int n => .mk none (.cons (Link.new "int") (.cons (Link.new (intToString n)) .nil))
  | .float tok => .mk none (.cons (Link.new "float") (.cons (Link.new tok) .nil))
  | .str s => encodeStr s
  | .arr items => .mk none (.cons (Link.new "array") (encodeList items))
  | .obj entries => .mk none (.cons (Link.new "object") (encodeEntries entries))

def encodeList : JList → LinkList
  | .nil => .nil
  | .cons v tl => .cons (encodeValue v) (encodeList tl)

def encodeEntries : JObj → LinkList
  | .nil => .nil
  | .cons k v tl =>
    .cons (.mk none (.cons (encodeStr k) (.cons (encodeValue v) .nil)))
      (encodeEntries tl)

end

/-- `lino_objects_codec::encode` (via `ObjectCodec::encode`). -/
def encode (v : JValue) : String := (encodeValue v).format

/-! ## The recursive-descent parser (`Parser` in `lino-objects-codec`)

The Rust parser walks a position through the input; we model the input as
the remaining `List Char`.  The mutually recursive procedures
(`parse_link`, `parse_id_or_link`, and `parse_link`'s values loop) are
given a fuel parameter to make the recursion structural; the Rust
recursion always terminates (every cycle through the three procedures
consumes at least one character), and the top-level entry point supplies
fuel `3 * length + 16`, which that consumption argument shows is more than
any input can use. -/

/-- `Parser::skip_whitespace`. -/
def skipWs : List Char → List Char
  | [] => []
  | c :: rest => if rustIsWhitespace c then skipWs rest else c :: rest

/-- The unquoted-identifier loop of `Parser::parse_id`: take characters up
to whitespace, `:`, `(` or `)`. -/
def takeUnquoted : List Char → List Char × List Char
  | [] => ([], [])
  | c :: rest =>
    if rustIsWhitespace c || c = ':' || c = '(' || c = ')' then ([], c :: rest)
    else
      let (a, b) := takeUnquoted rest
      (c :: a, b)

/-- The loop of `Parser::parse_quoted_string` (after the opening quote was
consumed), with its `escaped` flag. -/
def quotedLoop (q : Char) : Bool → List Char → Except String (List Char × List Char)
  | _, [] => .error "Unterminated string"
  | true, c :: rest => (quotedLoop q false rest).map (fun p => (c :: p.1, p.2))
  | false, c :: rest =>
    if c = '\\' then quotedLoop q true rest
    else if c = q then .ok ([], rest)
    else (quotedLoop q false rest).map (fun p => (c :: p.1, p.2))

/-- `Parser::parse_id`. -/
def parse_id (s : List Char) : Except String (String × List Char) :=
  match skipWs s with
  | c :: rest =>
    if c = '"' || c = '\'' then
      (quotedLoop c false rest).map (fun p => (String.mk p.1, p.2))
    else
      let (a, b) := takeUnquoted (c :: rest)
      if a.isEmpty then .error "Expected identifier" else .ok (String.mk a, b)
  | [] => .error "Expected identifier"

/-- `self.peek() == Some(c)`. -/
def headIs (c : Char) : List Char → Bool
  | [] => false
  | x :: _ => x = c

mutual

/-- `Parser::parse_link`. -/
def parseLink : Nat → List Char → Except String (Link × List Char)
  | 0, _ => .error "parser fuel exhausted"
  | fuel + 1, s =>
    let s1 := skipWs s
    if headIs '(' s1 then
      -- consume '('
      let s3 := skipWs s1.tail
      if headIs ')' s3 then .ok (Link.empty, s3.tail)
      else
        match parseIdOrLink fuel s3 with
        | .error e => .error e
        | .ok (first, s5) =>
          let s6 := skipWs s5
          if headIs ':' s6 then
            match parseValues fuel s6.tail with
            | .error e => .error e
            | .ok (vs, s8) => .ok (.mk first.id vs, s8)
          else
            match parseValues fuel s6 with
            | .error e => .error e
            | .ok (vs, s8) => .ok (.mk none (.cons first vs), s8)
    else
      match parse_id s1 with
      | .error e => .error e
      | .ok (i, rest) => .ok (Link.new i, rest)

/-- `Parser::parse_id_or_link`. -/
def parseIdOrLink : Nat → List Char → Except String (Link × List Char)
  | 0, _ => .error "parser fuel exhausted"
  | fuel + 1, s =>
    let s1 := skipWs s
    if headIs '(' s1 then parseLink fuel s1
    else
      match parse_id s1 with
      | .error e => .error e
      | .ok (i, rest) => .ok (Link.new i, rest)

/-- The values loop inside `Parser::parse_link`: parse elements until `)`. -/
def parseValues : Nat → List Char → Except String (LinkList × List Char)
  | 0, _ => .error "parser fuel exhausted"
  | fuel + 1, s =>
    let s1 := skipWs s
    if headIs ')' s1 then .ok (.nil, s1.tail)
    else if s1.isEmpty then .error "Unexpected end of input"
    else
      match parseIdOrLink fuel s1 with
      | .error e => .error e
      | .ok (l, s2) =>
        match parseValues fuel s2 with
        | .error e => .error e
        | .ok (ls, s3) => .ok (.cons l ls, s3)

end

/-- `str::trim` (Unicode whitespace from both ends). -/
def rustTrim (s : String) : String :=
  String.mk (((s.data.dropWhile (rustIsWhitespace ·)).reverse.dropWhile
    (rustIsWhitespace ·)).reverse)

def parseFuel (l : List Char) : Nat := 3 * l.length + 16

/-- `ObjectCodec::parse`: trim, empty input gives the empty `Link`,
otherwise run `Parser::parse_link` once (remaining input is discarded). -/
def parseTopLink (s : String) : Except String Link :=
  let t := rustTrim s
  if t.data.isEmpty then .ok Link.empty
  else (parseLink (parseFuel t.data) t.data).map Prod.fst

/-! ## `ObjectCodec::decode_link`

`decode_memo` is dead state: `decode` clears it via `reset` and
`decode_link` never inserts into it, so the memo lookup in the
values-empty case always misses and the branch returns the id as a
string.  The `serde_json::Map` that the OBJECT branch builds is modelled
as an ordered entry list with `objInsert` replicating `Map::insert`
(update in place when the key exists, append otherwise). -/

def objInsert : JObj → String → JValue → JObj
  | .nil, k, v => .cons k v .nil
  | .cons k' v' tl, k, v =>
    if k' = k then .cons k' v tl else .cons k' v' (objInsert tl k v)

mutual

def decodeLink : Link → Except String JValue
  | .mk id .nil =>
    match id with
    | some i => .ok (.str i)
    | none => .ok .null
  | .mk _ (.cons first rest) =>
    let marker := first.id.getD ""
    if marker = "null" then .ok .null
    else if marker = "bool" then
      .ok (.bool (((LinkList.cons first rest).get1.bind Link.id) = some "true"))
    else if marker = "int" then
      match (LinkList.cons first rest).get1.bind Link.id with
      | some s => (parseI64 s).map .int
      | none => .ok (.int 0)
    else if marker = "float" then
      match (LinkList.cons first rest).get1.bind Link.id with
      | some s =>
        if s = "NaN" then .ok .null
        else if s = "Infinity" then .ok .null
        else if s = "-Infinity" then .ok .null
        -- `s.parse::<f64>()` then `Number::from_f64`: a token of the finite
        -- grammar keeps its (canonical) decimal; `inf`/`nan` spellings give a
        -- non-finite value that `from_f64` maps to `Null`; anything else is a
        -- parse error.  (An overflowing finite-looking exponent also parses
        -- to infinity in Rust; canonical tokens of finite floats never
        -- overflow, so the model treats the finite grammar as finite.)
        else if floatSyntaxOk s then .ok (.float s)
        else if floatNonfiniteSpelling s then .ok .null
        else .error "invalid float literal"
      | none => .ok (.float "0.0")
    else if marker = "str" then
      match (LinkList.cons first rest).get1.bind Link.id with
      | some b64tok =>
        match b64Decode b64tok.data with
        | none => .error "invalid base64"
        | some bytes =>
          match utf8DecodeBytes bytes with
          | none => .error "invalid utf-8 sequence"
          | some chars => .ok (.str (String.mk chars))
      | none => .ok (.str "")
    else if marker = "array" then
      match decodeArr rest with
      | .error e => .error e
      | .ok items => .ok (.arr items)
    else if marker = "object" then
      match decodeObjPairs rest .nil with
      | .error e => .error e
      | .ok entries => .ok (.obj entries)
    else .error ("Unknown type marker: " ++ marker)

def decodeArr : LinkList → Except String JList
  | .nil => .ok .nil
  | .cons item tl =>
    match decodeLink item with
    | .error e => .error e
    | .ok v =>
      match decodeArr tl with
      | .error e => .error e
      | .ok vs => .ok (.cons v vs)

def decodeObjPairs : LinkList → JObj → Except String JObj
  | .nil, acc => .ok acc
  | .cons (.mk _ (.cons pv1 (.cons pv2 _))) tl, acc =>
    match decodeLink pv1 with
    | .error e => .error e
    | .ok key =>
      match decodeLink pv2 with
      | .error e => .error e
      | .ok val =>
        match key with
        | .str k => decodeObjPairs tl (objInsert acc k val)
        | _ => decodeObjPairs tl acc
  | .cons _ tl, acc => decodeObjPairs tl acc

end

/-- `lino_objects_codec::decode` (via `ObjectCodec::decode`). -/
def decode (s : String) : Except String JValue :=
  match parseTopLink s with
  | .error e => .error e
  | .ok link => decodeLink link

/-! ## Round-trip: token-level parsing lemmas -/

/-- A good unquoted token: nonempty and all characters safe. -/
def goodTokenB (t : String) : Bool := !t.data.isEmpty && t.data.all safeChar

/-- The next character (if any) after a rendered element inside an encoded
link is always a space separator or the closing paren. -/
def nextOkB : List Char → Bool
  | [] => true
  | c :: _ => c = ' ' || c = ')'

theorem safeChar_not_ws {c : Char} (h : safeChar c = true) :
    rustIsWhitespace c = false := by
  unfold safeChar at h
  simp only [Bool.and_eq_true, Bool.not_eq_true'] at h
  exact h.1.1.1.1.1

theorem safeChar_spec {c : Char} (h : safeChar c = true) :
    rustIsWhitespace c = false ∧ c ≠ ':' ∧ c ≠ '(' ∧ c ≠ ')' ∧ c ≠ '"' ∧ c ≠ '\'' := by
  unfold safeChar at h
  simp only [Bool.and_eq_true, Bool.not_eq_true', decide_eq_true_eq] at h
  exact ⟨h.1.1.1.1.1, h.1.1.1.1.2, h.1.1.1.2, h.1.1.2, h.1.2, h.2⟩

theorem skipWs_cons_not_ws {c : Char} (l : List Char) (h : rustIsWhitespace c = false) :
    skipWs (c :: l) = c :: l := by
  rw [skipWs, h]
  simp

theorem skipWs_cons_ws {c : Char} (l : List Char) (h : rustIsWhitespace c = true) :
    skipWs (c :: l) = skipWs l := by
  rw [skipWs, h]
  simp

theorem skipWs_space (l : List Char) : skipWs (' ' :: l) = skipWs l :=
  skipWs_cons_ws l (by decide)

theorem skipWs_lparen (l : List Char) : skipWs ('(' :: l) = '(' :: l :=
  skipWs_cons_not_ws l (by decide)

theorem skipWs_rparen (l : List Char) : skipWs (')' :: l) = ')' :: l :=
  skipWs_cons_not_ws l (by decide)

theorem skipWs_idem (s : List Char) : skipWs (skipWs s) = skipWs s := by
  induction s with
  | nil => rfl
  | cons c l ih =>
    by_cases h : rustIsWhitespace c = true
    · rw [skipWs_cons_ws l h, ih]
    · rw [skipWs_cons_not_ws l (by revert h; cases rustIsWhitespace c <;> simp),
        skipWs_cons_not_ws l (by revert h; cases rustIsWhitespace c <;> simp)]

/-- `parseValues` only looks at its input through `skipWs`. -/
theorem parseValues_skipWs (fuel : Nat) (s : List Char) :
    parseValues fuel (skipWs s) = parseValues fuel s := by
  match fuel with
  | 0 => rfl
  | fuel + 1 =>
    rw [parseValues, parseValues]
    rw [skipWs_idem]

theorem takeUnquoted_safe_front (a b : List Char) (ha : ∀ c ∈ a, safeChar c = true)
    (hb : nextOkB b = true) : takeUnquoted (a ++ b) = (a, b) := by
  induction a with
  | nil =>
    simp only [List.nil_append]
    match b, hb with
    | [], _ => rfl
    | c :: rest, hb =>
      rw [nextOkB] at hb
      rcases Bool.or_eq_true _ _ |>.mp hb with h | h
      · rcases decide_eq_true_iff.mp h with rfl
        rfl
      · rcases decide_eq_true_iff.mp h with rfl
        rfl
  | cons c a' ih =>
    rw [List.cons_append, takeUnquoted]
    have hc := safeChar_spec (ha c (by simp))
    rw [hc.1]
    have h2 : (decide (c = ':') || decide (c = '(') || decide (c = ')')) = false := by
      simp only [Bool.or_eq_false_iff, decide_eq_false_iff_not]
      exact ⟨⟨hc.2.1, hc.2.2.1⟩, hc.2.2.2.1⟩
    simp only [Bool.false_or, h2, Bool.or_false, Bool.false_eq_true, if_false]
    rw [ih (fun x hx => ha x (by simp [hx]))]

theorem skipWs_safe_head {t : List Char} {rest : List Char} (hne : t ≠ [])
    (hsafe : ∀ c ∈ t, safeChar c = true) : skipWs (t ++ rest) = t ++ rest := by
  match t with
  | [] => exact absurd rfl hne
  | c :: t' =>
    rw [List.cons_append]
    exact skipWs_cons_not_ws _ (safeChar_not_ws (hsafe c (by simp)))

theorem parse_id_token (t : String) (ht : goodTokenB t = true) (rest : List Char)
    (hnext : nextOkB rest = true) :
    parse_id (t.data ++ rest) = .ok (t, rest) := by
  unfold goodTokenB at ht
  simp only [Bool.and_eq_true, Bool.not_eq_true', List.all_eq_true] at ht
  obtain ⟨hne, hsafe⟩ := ht
  have hne' : t.data ≠ [] := by
    intro hd
    rw [hd] at hne
    simp at hne
  rw [parse_id]
  rw [skipWs_safe_head hne' (fun c hc => hsafe c hc)]
  match hd : t.data with
  | [] => exact absurd hd hne'
  | c :: cs =>
    have hc := safeChar_spec (hsafe c (by rw [hd]; simp))
    simp only [List.cons_append]
    have hq : (decide (c = '"') || decide (c = '\'')) = false := by
      simp only [Bool.or_eq_false_iff, decide_eq_false_iff_not]
      exact ⟨hc.2.2.2.2.1, hc.2.2.2.2.2⟩
    rw [hq]
    simp only [Bool.false_eq_true, if_false]
    have htu : takeUnquoted (c :: (cs ++ rest)) = (c :: cs, rest) := by
      have := takeUnquoted_safe_front (c :: cs) rest
        (fun x hx => hsafe x (by rw [hd]; exact hx)) hnext
      rwa [List.cons_append] at this
    rw [htu]
    simp only [List.isEmpty_cons, Bool.false_eq_true, if_false]
    rw [← hd]

/-! ### Good tokens: everything the encoder puts in identifier position -/

theorem safeChar_of_digit (c : Char) (h : isDigitCharB c = true) : safeChar c = true := by
  have h1 : 48 ≤ c.toNat ∧ c.toNat ≤ 57 := by
    simpa [isDigitCharB, Bool.and_eq_true, decide_eq_true_eq] using h
  have h2 : ∀ n, n < 58 → 48 ≤ n → safeChar (Char.ofNat n) = true := by decide
  have := h2 c.toNat (by omega) h1.1
  rwa [Char.ofNat_toNat] at this

theorem floatCharOk_safe (c : Char) (h : floatCharOk c = true) : safeChar c = true := by
  unfold floatCharOk at h
  simp only [Bool.or_eq_true, decide_eq_true_eq] at h
  rcases h with ((((h | rfl) | rfl) | rfl) | rfl) | rfl
  · exact safeChar_of_digit c h
  all_goals decide

theorem isEmpty_false_of_ne_nil {α : Type} {l : List α} (h : l ≠ []) :
    l.isEmpty = false := by
  cases l with
  | nil => exact absurd rfl h
  | cons a as => rfl

theorem goodTokenB_intToString (n : Int) : goodTokenB (intToString n) = true := by
  unfold goodTokenB
  refine (Bool.and_eq_true _ _).mpr ⟨?_, ?_⟩
  · simp only [Bool.not_eq_true']
    apply isEmpty_false_of_ne_nil
    unfold intToString
    by_cases h : n < 0
    · rw [if_pos h]
      simp [String.data_append]
    · rw [if_neg h]
      exact natToString_ne_nil _
  · rw [List.all_eq_true]
    intro c hc
    unfold intToString at hc
    by_cases h : n < 0
    · rw [if_pos h] at hc
      rw [String.data_append] at hc
      rcases List.mem_append.mp hc with h1 | h1
      · rcases List.mem_singleton.mp h1 with rfl
        decide
      · obtain ⟨k, hk, rfl⟩ := natToString_head_digit _ c h1
        exact digitChar_safe k hk
    · rw [if_neg h] at hc
      obtain ⟨k, hk, rfl⟩ := natToString_head_digit _ c hc
      exact digitChar_safe k hk

theorem b64OfString_safe (s : String) : ∀ c ∈ (b64OfString s).data, safeChar c = true := by
  intro c hc
  exact b64Encode_safe _ c hc

theorem goodTokenB_b64OfString (s : String) (h : s ≠ "") :
    goodTokenB (b64OfString s) = true := by
  unfold goodTokenB
  refine (Bool.and_eq_true _ _).mpr ⟨?_, ?_⟩
  · simp only [Bool.not_eq_true']
    apply isEmpty_false_of_ne_nil
    show b64Encode (utf8Encode s.data) ≠ []
    apply b64Encode_ne_nil
    intro hnil
    rw [utf8Encode_eq_nil_iff] at hnil
    apply h
    cases s with
    | mk data =>
      cases hnil
      rfl
  · rw [List.all_eq_true]
    exact b64OfString_safe s

theorem b64OfString_empty : b64OfString "" = "" := rfl

/-! ### `escape_reference` is the identity on good tokens -/

theorem contains_eq_false_of_safe {t : String} (h : ∀ c ∈ t.data, safeChar c = true)
    (x : Char) (hx : safeChar x = false) : t.data.contains x = false := by
  rw [List.contains_eq_any_beq]
  rw [List.any_eq_false]
  intro c hc
  simp only [beq_iff_eq]
  intro hcx
  subst hcx
  have := h _ hc
  rw [this] at hx
  cases hx

theorem escape_reference_safe (t : String) (h : ∀ c ∈ t.data, safeChar c = true) :
    escape_reference t = t := by
  unfold escape_reference
  by_cases he : t.data.isEmpty = true
  · rw [if_pos he]
    cases t with
    | mk data =>
      cases data with
      | nil => rfl
      | cons c cs => simp at he
  · rw [if_neg he]
    have hS := contains_eq_false_of_safe h '\'' (by decide)
    have hD := contains_eq_false_of_safe h '"' (by decide)
    have hc1 := contains_eq_false_of_safe h ':' (by decide)
    have hc2 := contains_eq_false_of_safe h '(' (by decide)
    have hc3 := contains_eq_false_of_safe h ')' (by decide)
    have hc4 := contains_eq_false_of_safe h ' ' (by decide)
    have hc5 := contains_eq_false_of_safe h '\t' (by decide)
    have hc6 := contains_eq_false_of_safe h '\n' (by decide)
    have hc7 := contains_eq_false_of_safe h '\r' (by decide)
    simp only [hS, hD, hc1, hc2, hc3, hc4, hc5, hc6, hc7, Bool.or_false, Bool.and_false,
      Bool.false_eq_true, if_false]

theorem escape_reference_good (t : String) (h : goodTokenB t = true) :
    escape_reference t = t := by
  unfold goodTokenB at h
  simp only [Bool.and_eq_true, List.all_eq_true] at h
  exact escape_reference_safe t h.2

theorem escape_reference_empty : escape_reference "" = "" := rfl

/-! ### Size measure and fuel bounds -/

mutual
def jsize : JValue → Nat
  | .null => 1
  | .bool _ => 1
  | .int _ => 1
  | .float _ => 1
  | .str _ => 1
  | .arr items => 1 + jsizeL items
  | .obj entries => 1 + jsizeO entries
def jsizeL : JList → Nat
  | .nil => 0
  | .cons v tl => jsize v + jsizeL tl
def jsizeO : JObj → Nat
  | .nil => 0
  | .cons _ v tl => 2 + jsize v + jsizeO tl
end

theorem jsize_pos (v : JValue) : 1 ≤ jsize v := by
  cases v <;> simp [jsize]

/-! ### The `Link` tree the parser reconstructs from an encoded value

Identical to `encodeValue`'s output except that the empty base64 token of
an empty string renders as nothing and hence does not come back as a
child. -/

def pstr (s : String) : Link :=
  if s = "" then .mk none (.cons (Link.new "str") .nil)
  else .mk none (.cons (Link.new "str") (.cons (Link.new (b64OfString s)) .nil))

mutual

def plink : JValue → Link
  | .null => .mk none (.cons (Link.new "null") .nil)
  | .bool b =>
    .mk none (.cons (Link.new "bool")
      (.cons (Link.new (if b then "true" else "false")) .nil))
  | .int n => .mk none (.cons (Link.new "int") (.cons (Link.new (intToString n)) .nil))
  | .float tok => .mk none (.cons (Link.new "float") (.cons (Link.new tok) .nil))
  | .str s => pstr s
  | .arr items => .mk none (.cons (Link.new "array") (plinkList items))
  | .obj entries => .mk none (.cons (Link.new "object") (plinkObj entries))

def plinkList : JList → LinkList
  | .nil => .nil
  | .cons v tl => .cons (plink v) (plinkList tl)

def plinkObj : JObj → LinkList
  | .nil => .nil
  | .cons k v tl =>
    .cons (.mk none (.cons (pstr k) (.cons (plink v) .nil))) (plinkObj tl)

end

/-! ### Render decomposition at the character level -/

def rEnc (v : JValue) : List Char := (fmtChild (encodeValue v)).data

mutual
def spacedData : JList → List Char
  | .nil => []
  | .cons v tl => ' ' :: rEnc v ++ spacedData tl
def spacedDataO : JObj → List Char
  | .nil => []
  | .cons k v tl => ' ' :: ('(' :: rEnc (.str k) ++ ' ' :: rEnc v ++ [')']) ++ spacedDataO tl
end

def spacedL : List String → List Char
  | [] => []
  | y :: ys => ' ' :: y.data ++ spacedL ys

theorem joinSpace_cons_cons (x y : String) (ys : List String) :
    joinSpace (x :: y :: ys) = x ++ " " ++ joinSpace (y :: ys) := rfl

theorem joinSpace_data (x : String) (xs : List String) :
    (joinSpace (x :: xs)).data = x.data ++ spacedL xs := by
  induction xs generalizing x with
  | nil => simp [joinSpace, spacedL]
  | cons y ys ih =>
    rw [joinSpace_cons_cons]
    rw [String.data_append, String.data_append, ih y]
    simp [spacedL]

theorem fmtChild_none_cons (h : Link) (t : LinkList) :
    fmtChild (.mk none (.cons h t)) =
      "(" ++ joinSpace (fmtChild h :: fmtValues t) ++ ")" := by
  rw [fmtChild]

theorem fmtChild_token (i : String) : fmtChild (Link.new i) = escape_reference i := by
  rw [Link.new, fmtChild]

theorem fmtValues_nil : fmtValues .nil = [] := by
  rw [fmtValues]

theorem fmtValues_cons (h : Link) (t : LinkList) :
    fmtValues (.cons h t) = fmtChild h :: fmtValues t := by
  rw [fmtValues]

theorem fmtChild_two_data (tag pay : String) (htag : escape_reference tag = tag)
    (hpay : escape_reference pay = pay) :
    (fmtChild (.mk none (.cons (Link.new tag) (.cons (Link.new pay) .nil)))).data
      = '(' :: (tag.data ++ ' ' :: pay.data ++ [')']) := by
  rw [fmtChild_none_cons, fmtChild_token, fmtValues_cons, fmtChild_token, fmtValues_nil,
    htag, hpay]
  rw [String.data_append, String.data_append, joinSpace_data]
  simp [spacedL]

theorem rEnc_null : rEnc .null = '(' :: ("null".data ++ [')']) := by decide

theorem rEnc_bool (b : Bool) :
    rEnc (.bool b) =
      '(' :: ("bool".data ++ ' ' :: (if b then "true" else "false").data ++ [')']) := by
  cases b <;> decide

theorem rEnc_int (n : Int) :
    rEnc (.int n) = '(' :: ("int".data ++ ' ' :: (intToString n).data ++ [')']) := by
  unfold rEnc
  show (fmtChild (.mk none (.cons (Link.new "int")
    (.cons (Link.new (intToString n)) .nil)))).data = _
  rw [fmtChild_two_data "int" (intToString n) (by decide)
    (escape_reference_good _ (goodTokenB_intToString n))]

theorem rEnc_float (tok : String) (hesc : escape_reference tok = tok) :
    rEnc (.float tok) = '(' :: ("float".data ++ ' ' :: tok.data ++ [')']) := by
  unfold rEnc
  show (fmtChild (.mk none (.cons (Link.new "float")
    (.cons (Link.new tok) .nil)))).data = _
  rw [fmtChild_two_data "float" tok (by decide) hesc]

theorem escape_reference_b64 (s : String) :
    escape_reference (b64OfString s) = b64OfString s := by
  exact escape_reference_safe _ (b64OfString_safe s)

theorem rEnc_str (s : String) :
    rEnc (.str s) = '(' :: ("str".data ++ ' ' :: (b64OfString s).data ++ [')']) := by
  unfold rEnc
  show (fmtChild (.mk none (.cons (Link.new "str")
    (.cons (Link.new (b64OfString s)) .nil)))).data = _
  rw [fmtChild_two_data "str" (b64OfString s) (by decide) (escape_reference_b64 s)]

theorem spacedL_fmtValues_encodeList (items : JList) :
    spacedL (fmtValues (encodeList items)) = spacedData items := by
  match items with
  | .nil => rfl
  | .cons v tl =>
    show spacedL (fmtValues (.cons (encodeValue v) (encodeList tl))) = _
    rw [fmtValues_cons, spacedL, spacedL_fmtValues_encodeList tl, spacedData]
    rfl

theorem rEnc_arr (items : JList) :
    rEnc (.arr items) = '(' :: ("array".data ++ (spacedData items ++ [')'])) := by
  unfold rEnc
  show (fmtChild (.mk none (.cons (Link.new "array") (encodeList items)))).data = _
  rw [fmtChild_none_cons, fmtChild_token, escape_reference_good "array" (by decide)]
  rw [String.data_append, String.data_append, joinSpace_data, spacedL_fmtValues_encodeList]
  simp

theorem rPair_data (k : String) (v : JValue) :
    (fmtChild (.mk none (.cons (encodeStr k) (.cons (encodeValue v) .nil)))).data
      = '(' :: (rEnc (.str k) ++ ' ' :: rEnc v ++ [')']) := by
  rw [fmtChild_none_cons, fmtValues_cons, fmtValues_nil]
  rw [String.data_append, String.data_append, joinSpace_data]
  have hk : fmtChild (encodeStr k) = fmtChild (encodeValue (.str k)) := rfl
  rw [hk]
  simp [spacedL, rEnc]

theorem spacedL_fmtValues_encodeEntries (entries : JObj) :
    spacedL (fmtValues (encodeEntries entries)) = spacedDataO entries := by
  match entries with
  | .nil => rfl
  | .cons k v tl =>
    show spacedL (fmtValues (.cons (.mk none (.cons (encodeStr k)
      (.cons (encodeValue v) .nil))) (encodeEntries tl))) = _
    rw [fmtValues_cons, spacedL, spacedL_fmtValues_encodeEntries tl, spacedDataO]
    rw [rPair_data]
    simp

theorem rEnc_obj (entries : JObj) :
    rEnc (.obj entries) = '(' :: ("object".data ++ (spacedDataO entries ++ [')'])) := by
  unfold rEnc
  show (fmtChild (.mk none (.cons (Link.new "object") (encodeEntries entries)))).data = _
  rw [fmtChild_none_cons, fmtChild_token, escape_reference_good "object" (by decide)]
  rw [String.data_append, String.data_append, joinSpace_data, spacedL_fmtValues_encodeEntries]
  simp

/-- Every encoded value's rendering opens with `(`. -/
theorem rEnc_exists_cons (v : JValue) : ∃ l, rEnc v = '(' :: l := by
  cases v with
  | null => exact ⟨_, rEnc_null⟩
  | bool b => exact ⟨_, rEnc_bool b⟩
  | int n => exact ⟨_, rEnc_int n⟩
  | float tok =>
    refine ⟨(joinSpace (fmtChild (Link.new "float") ::
        fmtValues (.cons (Link.new tok) .nil))).data ++ [')'], ?_⟩
    unfold rEnc
    show (fmtChild (.mk none (.cons (Link.new "float") (.cons (Link.new tok) .nil)))).data = _
    rw [fmtChild_none_cons]
    rw [String.data_append, String.data_append]
    rfl
  | str s => exact ⟨_, rEnc_str s⟩
  | arr items => exact ⟨_, rEnc_arr items⟩
  | obj entries => exact ⟨_, rEnc_obj entries⟩

/-! ### Stepping the parser -/

theorem headIs_cons (c x : Char) (l : List Char) : headIs c (x :: l) = decide (x = c) := rfl

theorem parseLink_succ (fuel : Nat) (s : List Char) :
    parseLink (fuel + 1) s =
      (let s1 := skipWs s
      if headIs '(' s1 then
        let s3 := skipWs s1.tail
        if headIs ')' s3 then .ok (Link.empty, s3.tail)
        else
          match parseIdOrLink fuel s3 with
          | .error e => .error e
          | .ok (first, s5) =>
            let s6 := skipWs s5
            if headIs ':' s6 then
              match parseValues fuel s6.tail with
              | .error e => .error e
              | .ok (vs, s8) => .ok (.mk first.id vs, s8)
            else
              match parseValues fuel s6 with
              | .error e => .error e
              | .ok (vs, s8) => .ok (.mk none (.cons first vs), s8)
      else
        match parse_id s1 with
        | .error e => .error e
        | .ok (i, rest) => .ok (Link.new i, rest)) := by
  rw [parseLink]

theorem parseIdOrLink_succ (fuel : Nat) (s : List Char) :
    parseIdOrLink (fuel + 1) s =
      (let s1 := skipWs s
      if headIs '(' s1 then parseLink fuel s1
      else
        match parse_id s1 with
        | .error e => .error e
        | .ok (i, rest) => .ok (Link.new i, rest)) := by
  rw [parseIdOrLink]

theorem parseValues_succ (fuel : Nat) (s : List Char) :
    parseValues (fuel + 1) s =
      (let s1 := skipWs s
      if headIs ')' s1 then .ok (.nil, s1.tail)
      else if s1.isEmpty then .error "Unexpected end of input"
      else
        match parseIdOrLink fuel s1 with
        | .error e => .error e
        | .ok (l, s2) =>
          match parseValues fuel s2 with
          | .error e => .error e
          | .ok (ls, s3) => .ok (.cons l ls, s3)) := by
  rw [parseValues]

theorem parseValues_zero (s : List Char) :
    parseValues 0 s = .error "parser fuel exhausted" := rfl

theorem parseValues_rparen (fuel : Nat) (rest : List Char) :
    parseValues (fuel + 1) (')' :: rest) = .ok (.nil, rest) := by
  rw [parseValues_succ]
  simp only [skipWs_rparen, headIs_cons]
  rw [if_pos (by decide)]
  rfl

theorem goodToken_parts {t : String} (ht : goodTokenB t = true) :
    t.data ≠ [] ∧ ∀ c ∈ t.data, safeChar c = true := by
  unfold goodTokenB at ht
  simp only [Bool.and_eq_true, Bool.not_eq_true', List.all_eq_true] at ht
  refine ⟨?_, ht.2⟩
  intro hd
  rw [hd] at ht
  simp at ht

/-- `parse_id_or_link` on a good unquoted token. -/
theorem parseIdOrLink_token (fuel : Nat) (t : String) (ht : goodTokenB t = true)
    (rest : List Char) (hnext : nextOkB rest = true) :
    parseIdOrLink (fuel + 1) (t.data ++ rest) = .ok (Link.new t, rest) := by
  obtain ⟨hne, hsafe⟩ := goodToken_parts ht
  rw [parseIdOrLink_succ]
  simp only [skipWs_safe_head hne hsafe]
  match hd : t.data with
  | [] => exact absurd hd hne
  | c :: cs =>
    have hc := safeChar_spec (hsafe c (by rw [hd]; simp))
    rw [List.cons_append, headIs_cons]
    rw [if_neg (by simpa using hc.2.2.1)]
    have := parse_id_token t ht rest hnext
    rw [hd, List.cons_append] at this
    rw [this]

/-- `parse_link` when the body starts with a good token first element and
continues with an already-parsed values region. -/
theorem parseLink_token_first (g : Nat) (tag : String) (htag : goodTokenB tag = true)
    (mid out : List Char) (vs : LinkList)
    (hnext : nextOkB mid = true)
    (hcolon : headIs ':' (skipWs mid) = false)
    (hvals : parseValues g mid = .ok (vs, out)) :
    parseLink (g + 1) ('(' :: (tag.data ++ mid)) =
      .ok (.mk none (.cons (Link.new tag) vs), out) := by
  obtain ⟨hne, hsafe⟩ := goodToken_parts htag
  match g, hvals with
  | g' + 1, hvals =>
    rw [parseLink_succ]
    simp only [skipWs_lparen, headIs_cons, List.tail_cons]
    rw [if_pos (by decide)]
    rw [skipWs_safe_head hne hsafe]
    match hd : tag.data with
    | [] => exact absurd hd hne
    | c :: cs =>
      have hc := safeChar_spec (hsafe c (by rw [hd]; simp))
      rw [List.cons_append, headIs_cons]
      rw [if_neg (by simpa using hc.2.2.2.1)]
      have htok := parseIdOrLink_token g' tag htag mid hnext
      rw [hd, List.cons_append] at htok
      rw [htok]
      simp only []
      rw [hcolon]
      simp only [Bool.false_eq_true, if_false]
      rw [parseValues_skipWs, hvals]

theorem nextOkB_rparen (rest : List Char) : nextOkB (')' :: rest) = true := rfl

theorem nextOkB_space (rest : List Char) : nextOkB (' ' :: rest) = true := rfl

theorem headIs_colon_rparen (rest : List Char) : headIs ':' (')' :: rest) = false := rfl

theorem parseValues_cons_space (fuel : Nat) (s : List Char) :
    parseValues fuel (' ' :: s) = parseValues fuel s := by
  rw [← parseValues_skipWs fuel (' ' :: s), skipWs_space, parseValues_skipWs]

theorem parseValues_token_close (fuel : Nat) (pay : String) (hpay : goodTokenB pay = true)
    (rest : List Char) :
    parseValues (fuel + 2) (pay.data ++ ')' :: rest) =
      .ok (.cons (Link.new pay) .nil, rest) := by
  obtain ⟨hne, hsafe⟩ := goodToken_parts hpay
  rw [parseValues_succ]
  simp only [skipWs_safe_head hne hsafe]
  match hd : pay.data with
  | [] => exact absurd hd hne
  | c :: cs =>
    have hc := safeChar_spec (hsafe c (by rw [hd]; simp))
    rw [List.cons_append, headIs_cons]
    rw [if_neg (by simpa using hc.2.2.2.1)]
    simp only [List.isEmpty_cons, Bool.false_eq_true, if_false]
    have htok := parseIdOrLink_token fuel pay hpay (')' :: rest) (nextOkB_rparen rest)
    rw [hd, List.cons_append] at htok
    rw [htok]
    simp only []
    rw [parseValues_rparen]

theorem parseIdOrLink_tag_close (fuel : Nat) (tag : String) (htag : goodTokenB tag = true)
    (rest : List Char) :
    parseIdOrLink (fuel + 3) ('(' :: (tag.data ++ ')' :: rest)) =
      .ok (.mk none (.cons (Link.new tag) .nil), rest) := by
  rw [parseIdOrLink_succ]
  simp only [skipWs_lparen, headIs_cons]
  rw [if_pos (by decide)]
  exact parseLink_token_first (fuel + 1) tag htag (')' :: rest) rest .nil (nextOkB_rparen rest)
    (by rw [skipWs_rparen]; exact headIs_colon_rparen rest) (parseValues_rparen fuel rest)

theorem parseIdOrLink_tag_spaceclose (fuel : Nat) (tag : String)
    (htag : goodTokenB tag = true) (rest : List Char) :
    parseIdOrLink (fuel + 3) ('(' :: (tag.data ++ ' ' :: ')' :: rest)) =
      .ok (.mk none (.cons (Link.new tag) .nil), rest) := by
  rw [parseIdOrLink_succ]
  simp only [skipWs_lparen, headIs_cons]
  rw [if_pos (by decide)]
  refine parseLink_token_first (fuel + 1) tag htag (' ' :: ')' :: rest) rest .nil
    (nextOkB_space _) ?_ ?_
  · rw [skipWs_space, skipWs_rparen]
    exact headIs_colon_rparen rest
  · rw [parseValues_cons_space, parseValues_rparen]

theorem parseIdOrLink_tag_payload (fuel : Nat) (tag pay : String)
    (htag : goodTokenB tag = true) (hpay : goodTokenB pay = true) (rest : List Char) :
    parseIdOrLink (fuel + 4) ('(' :: (tag.data ++ ' ' :: pay.data ++ ')' :: rest)) =
      .ok (.mk none (.cons (Link.new tag) (.cons (Link.new pay) .nil)), rest) := by
  obtain ⟨hpne, hpsafe⟩ := goodToken_parts hpay
  rw [parseIdOrLink_succ]
  simp only [skipWs_lparen, headIs_cons]
  rw [if_pos (by decide)]
  have hassoc : (' ' :: pay.data) ++ (')' :: rest) = ' ' :: (pay.data ++ ')' :: rest) := by
    simp
  have hcolon : headIs ':' (skipWs (' ' :: pay.data ++ ')' :: rest)) = false := by
    rw [hassoc, skipWs_space, skipWs_safe_head hpne hpsafe]
    match hd : pay.data with
    | [] => exact absurd hd hpne
    | c :: cs =>
      have hc := safeChar_spec (hpsafe c (by rw [hd]; simp))
      rw [List.cons_append, headIs_cons]
      simpa using hc.2.1
  have hvals : parseValues (fuel + 2) (' ' :: pay.data ++ ')' :: rest) =
      .ok (.cons (Link.new pay) .nil, rest) := by
    rw [hassoc, parseValues_cons_space]
    exact parseValues_token_close fuel pay hpay rest
  have hnx : nextOkB (' ' :: pay.data ++ ')' :: rest) = true := by
    rw [hassoc]
    exact nextOkB_space _
  rw [List.append_assoc tag.data (' ' :: pay.data) (')' :: rest)]
  exact parseLink_token_first (fuel + 2) tag htag (' ' :: pay.data ++ ')' :: rest) rest
    (.cons (Link.new pay) .nil) hnx hcolon hvals

theorem goodTokenB_of_wf_float {tok : String} (h : JValue.wf (.float tok) = true) :
    goodTokenB tok = true := by
  rw [JValue.wf] at h
  simp only [Bool.and_eq_true] at h
  unfold goodTokenB
  refine (Bool.and_eq_true _ _).mpr ⟨h.1.1, ?_⟩
  rw [List.all_eq_true]
  intro c hc
  have := (List.all_eq_true.mp h.1.2) c hc
  exact floatCharOk_safe c this

/-- `parse_id_or_link` on an encoded `str` value. -/
theorem parseIdOrLink_str (fuel : Nat) (s : String) (rest : List Char) :
    parseIdOrLink (fuel + 4) (rEnc (.str s) ++ rest) = .ok (pstr s, rest) := by
  by_cases hs : s = ""
  · subst hs
    rw [rEnc_str, pstr, if_pos rfl]
    have hshape : ('(' :: ("str".data ++ ' ' :: (b64OfString "").data ++ [')'])) ++ rest
        = '(' :: ("str".data ++ ' ' :: ')' :: rest) := by
      rw [b64OfString_empty]
      simp
    rw [hshape]
    exact parseIdOrLink_tag_spaceclose (fuel + 1) "str" (by decide) rest
  · rw [rEnc_str, pstr, if_neg hs]
    have hshape : ('(' :: ("str".data ++ ' ' :: (b64OfString s).data ++ [')'])) ++ rest
        = '(' :: ("str".data ++ ' ' :: (b64OfString s).data ++ ')' :: rest) := by
      simp
    rw [hshape]
    exact parseIdOrLink_tag_payload fuel "str" (b64OfString s) (by decide)
      (goodTokenB_b64OfString s hs) rest

/-! ### Equation lemmas for the mutual definitions -/

theorem plink_null : plink .null = .mk none (.cons (Link.new "null") .nil) := by
  rw [plink]

theorem plink_bool (b : Bool) :
    plink (.bool b) = .mk none (.cons (Link.new "bool")
      (.cons (Link.new (if b then "true" else "false")) .nil)) := by
  rw [plink]

theorem plink_int (n : Int) :
    plink (.int n) = .mk none (.cons (Link.new "int")
      (.cons (Link.new (intToString n)) .nil)) := by
  rw [plink]

theorem plink_float (tok : String) :
    plink (.float tok) = .mk none (.cons (Link.new "float")
      (.cons (Link.new tok) .nil)) := by
  rw [plink]

theorem plink_str (s : String) : plink (.str s) = pstr s := by
  rw [plink]

theorem plink_arr (items : JList) :
    plink (.arr items) = .mk none (.cons (Link.new "array") (plinkList items)) := by
  rw [plink]

theorem plink_obj (entries : JObj) :
    plink (.obj entries) = .mk none (.cons (Link.new "object") (plinkObj entries)) := by
  rw [plink]

theorem plinkList_nil : plinkList .nil = .nil := by
  rw [plinkList]

theorem plinkList_cons (v : JValue) (tl : JList) :
    plinkList (.cons v tl) = .cons (plink v) (plinkList tl) := by
  rw [plinkList]

theorem plinkObj_nil : plinkObj .nil = .nil := by
  rw [plinkObj]

theorem plinkObj_cons (k : String) (v : JValue) (tl : JObj) :
    plinkObj (.cons k v tl) =
      .cons (.mk none (.cons (pstr k) (.cons (plink v) .nil))) (plinkObj tl) := by
  rw [plinkObj]

theorem spacedData_nil : spacedData .nil = [] := by
  rw [spacedData]

theorem spacedData_cons (v : JValue) (tl : JList) :
    spacedData (.cons v tl) = ' ' :: rEnc v ++ spacedData tl := by
  rw [spacedData]

theorem spacedDataO_nil : spacedDataO .nil = [] := by
  rw [spacedDataO]

theorem spacedDataO_cons (k : String) (v : JValue) (tl : JObj) :
    spacedDataO (.cons k v tl) =
      ' ' :: ('(' :: rEnc (.str k) ++ ' ' :: rEnc v ++ [')']) ++ spacedDataO tl := by
  rw [spacedDataO]

theorem jsize_scalar :
    jsize .null = 1 ∧ (∀ b, jsize (.bool b) = 1) ∧ (∀ n, jsize (.int n) = 1) ∧
    (∀ t, jsize (.float t) = 1) ∧ (∀ s, jsize (.str s) = 1) := by
  refine ⟨by rw [jsize], fun b => by rw [jsize], fun n => by rw [jsize],
    fun t => by rw [jsize], fun s => by rw [jsize]⟩

theorem jsize_arr (items : JList) : jsize (.arr items) = 1 + jsizeL items := by
  rw [jsize]

theorem jsize_obj (entries : JObj) : jsize (.obj entries) = 1 + jsizeO entries := by
  rw [jsize]

theorem jsizeL_nil : jsizeL .nil = 0 := by
  rw [jsizeL]

theorem jsizeL_cons (v : JValue) (tl : JList) :
    jsizeL (.cons v tl) = jsize v + jsizeL tl := by
  rw [jsizeL]

theorem jsizeO_nil : jsizeO .nil = 0 := by
  rw [jsizeO]

theorem jsizeO_cons (k : String) (v : JValue) (tl : JObj) :
    jsizeO (.cons k v tl) = 2 + jsize v + jsizeO tl := by
  rw [jsizeO]

theorem wfL_cons_parts {v : JValue} {tl : JList} (h : JList.wfL (.cons v tl) = true) :
    JValue.wf v = true ∧ JList.wfL tl = true := by
  rw [JList.wfL] at h
  exact Bool.and_eq_true _ _ |>.mp h

theorem wfO_cons_parts {k : String} {v : JValue} {tl : JObj}
    (h : JObj.wfO (.cons k v tl) = true) :
    JValue.wf v = true ∧ JObj.wfO tl = true := by
  rw [JObj.wfO] at h
  exact Bool.and_eq_true _ _ |>.mp h

theorem wf_arr_parts {items : JList} (h : JValue.wf (.arr items) = true) :
    JList.wfL items = true := by
  rw [JValue.wf] at h
  exact h

theorem wf_obj_parts {entries : JObj} (h : JValue.wf (.obj entries) = true) :
    entries.keys.Nodup ∧ JObj.wfO entries = true := by
  rw [JValue.wf] at h
  have := Bool.and_eq_true _ _ |>.mp h
  exact ⟨decide_eq_true_iff.mp this.1, this.2⟩

/-! ### Heads of spaced renders -/

theorem nextOkB_spacedData (items : JList) (rest : List Char) :
    nextOkB (spacedData items ++ ')' :: rest) = true := by
  cases items with
  | nil =>
    rw [spacedData_nil, List.nil_append]
    exact nextOkB_rparen rest
  | cons v tl =>
    rw [spacedData_cons]
    rfl

theorem nextOkB_spacedDataO (entries : JObj) (rest : List Char) :
    nextOkB (spacedDataO entries ++ ')' :: rest) = true := by
  cases entries with
  | nil =>
    rw [spacedDataO_nil, List.nil_append]
    exact nextOkB_rparen rest
  | cons k v tl =>
    rw [spacedDataO_cons]
    rfl

theorem headIs_colon_spacedData (items : JList) (rest : List Char) :
    headIs ':' (skipWs (spacedData items ++ ')' :: rest)) = false := by
  cases items with
  | nil =>
    rw [spacedData_nil, List.nil_append, skipWs_rparen]
    exact headIs_colon_rparen rest
  | cons v tl =>
    rw [spacedData_cons]
    obtain ⟨l, hl⟩ := rEnc_exists_cons v
    rw [hl]
    show headIs ':' (skipWs (' ' :: (('(' :: l) ++ spacedData tl ++ ')' :: rest))) = false
    rw [skipWs_space, List.cons_append, List.cons_append, skipWs_lparen]
    rfl

theorem headIs_colon_spacedDataO (entries : JObj) (rest : List Char) :
    headIs ':' (skipWs (spacedDataO entries ++ ')' :: rest)) = false := by
  cases entries with
  | nil =>
    rw [spacedDataO_nil, List.nil_append, skipWs_rparen]
    exact headIs_colon_rparen rest
  | cons k v tl =>
    rw [spacedDataO_cons]
    show headIs ':' (skipWs (' ' :: (('(' :: (rEnc (.str k) ++ ' ' :: rEnc v ++ [')']))
      ++ spacedDataO tl ++ ')' :: rest))) = false
    rw [skipWs_space, List.cons_append, List.cons_append, skipWs_lparen]
    rfl

/-- `parse_link` when the first element was already parsed by some means and
the rest of the body is an already-parsed values region. -/
theorem parseLink_first_parsed (g : Nat) (body mid out : List Char)
    (firstLink : Link) (vs : LinkList)
    (hbody : skipWs body = body) (hbodyHead : headIs ')' body = false)
    (hfirst : parseIdOrLink g body = .ok (firstLink, mid))
    (hcolon : headIs ':' (skipWs mid) = false)
    (hvals : parseValues g mid = .ok (vs, out)) :
    parseLink (g + 1) ('(' :: body) = .ok (.mk none (.cons firstLink vs), out) := by
  rw [parseLink_succ]
  simp only [skipWs_lparen, headIs_cons, List.tail_cons]
  rw [if_pos (by decide)]
  rw [hbody, hbodyHead]
  simp only [Bool.false_eq_true, if_false]
  rw [hfirst]
  simp only []
  rw [hcolon]
  simp only [Bool.false_eq_true, if_false]
  rw [parseValues_skipWs, hvals]

/-! ### The main parsing theorem: encoded values parse back to their `plink` -/

mutual

theorem parse_rEnc : ∀ (v : JValue) (rest : List Char) (fuel : Nat),
    JValue.wf v = true → 4 * jsize v ≤ fuel → nextOkB rest = true →
    parseIdOrLink fuel (rEnc v ++ rest) = .ok (plink v, rest) := by
  intro v rest fuel hwf hfuel hnext
  match v with
  | .null =>
    rw [rEnc_null, plink_null]
    rw [jsize_scalar.1] at hfuel
    have hshape : ('(' :: ("null".data ++ [')'])) ++ rest
        = '(' :: ("null".data ++ ')' :: rest) := by simp
    rw [hshape]
    obtain ⟨f, rfl⟩ : ∃ f, fuel = f + 3 := ⟨fuel - 3, by omega⟩
    exact parseIdOrLink_tag_close f "null" (by decide) rest
  | .bool b =>
    rw [rEnc_bool, plink_bool]
    rw [jsize_scalar.2.1 b] at hfuel
    have hshape : ('(' :: ("bool".data ++ ' ' :: (if b then "true" else "false").data
        ++ [')'])) ++ rest
        = '(' :: ("bool".data ++ ' ' :: (if b then "true" else "false").data
          ++ ')' :: rest) := by simp
    rw [hshape]
    obtain ⟨f, rfl⟩ : ∃ f, fuel = f + 4 := ⟨fuel - 4, by omega⟩
    cases b
    · exact parseIdOrLink_tag_payload f "bool" "false" (by decide) (by decide) rest
    · exact parseIdOrLink_tag_payload f "bool" "true" (by decide) (by decide) rest
  | .int n =>
    rw [rEnc_int, plink_int]
    rw [jsize_scalar.2.2.1 n] at hfuel
    have hshape : ('(' :: ("int".data ++ ' ' :: (intToString n).data ++ [')'])) ++ rest
        = '(' :: ("int".data ++ ' ' :: (intToString n).data ++ ')' :: rest) := by simp
    rw [hshape]
    obtain ⟨f, rfl⟩ : ∃ f, fuel = f + 4 := ⟨fuel - 4, by omega⟩
    exact parseIdOrLink_tag_payload f "int" (intToString n) (by decide)
      (goodTokenB_intToString n) rest
  | .float tok =>
    have hgood := goodTokenB_of_wf_float hwf
    rw [rEnc_float tok (escape_reference_good tok hgood), plink_float]
    rw [jsize_scalar.2.2.2.1 tok] at hfuel
    have hshape : ('(' :: ("float".data ++ ' ' :: tok.data ++ [')'])) ++ rest
        = '(' :: ("float".data ++ ' ' :: tok.data ++ ')' :: rest) := by simp
    rw [hshape]
    obtain ⟨f, rfl⟩ : ∃ f, fuel = f + 4 := ⟨fuel - 4, by omega⟩
    exact parseIdOrLink_tag_payload f "float" tok (by decide) hgood rest
  | .str s =>
    rw [plink_str]
    rw [jsize_scalar.2.2.2.2 s] at hfuel
    obtain ⟨f, rfl⟩ : ∃ f, fuel = f + 4 := ⟨fuel - 4, by omega⟩
    exact parseIdOrLink_str f s rest
  | .arr items =>
    have hw := wf_arr_parts hwf
    rw [rEnc_arr, plink_arr]
    rw [jsize_arr] at hfuel
    have hshape : ('(' :: ("array".data ++ (spacedData items ++ [')']))) ++ rest
        = '(' :: ("array".data ++ (spacedData items ++ ')' :: rest)) := by simp
    rw [hshape]
    obtain ⟨g, rfl⟩ : ∃ g, fuel = g + 1 + 1 := ⟨fuel - 2, by omega⟩
    rw [parseIdOrLink_succ]
    simp only [skipWs_lparen, headIs_cons]
    rw [if_pos (by decide)]
    exact parseLink_token_first g "array" (by decide) (spacedData items ++ ')' :: rest) rest
      (plinkList items) (nextOkB_spacedData items rest) (headIs_colon_spacedData items rest)
      (parse_spacedData items rest g hw (by omega))
  | .obj entries =>
    have hw := (wf_obj_parts hwf).2
    rw [rEnc_obj, plink_obj]
    rw [jsize_obj] at hfuel
    have hshape : ('(' :: ("object".data ++ (spacedDataO entries ++ [')']))) ++ rest
        = '(' :: ("object".data ++ (spacedDataO entries ++ ')' :: rest)) := by simp
    rw [hshape]
    obtain ⟨g, rfl⟩ : ∃ g, fuel = g + 1 + 1 := ⟨fuel - 2, by omega⟩
    rw [parseIdOrLink_succ]
    simp only [skipWs_lparen, headIs_cons]
    rw [if_pos (by decide)]
    exact parseLink_token_first g "object" (by decide) (spacedDataO entries ++ ')' :: rest)
      rest (plinkObj entries) (nextOkB_spacedDataO entries rest)
      (headIs_colon_spacedDataO entries rest)
      (parse_spacedDataO entries rest g hw (by omega))

theorem parse_spacedData : ∀ (items : JList) (rest : List Char) (fuel : Nat),
    JList.wfL items = true → 4 * jsizeL items + 1 ≤ fuel →
    parseValues fuel (spacedData items ++ ')' :: rest) = .ok (plinkList items, rest) := by
  intro items rest fuel hwf hfuel
  match items with
  | .nil =>
    rw [spacedData_nil, List.nil_append, plinkList_nil]
    obtain ⟨f, rfl⟩ : ∃ f, fuel = f + 1 := ⟨fuel - 1, by omega⟩
    exact parseValues_rparen f rest
  | .cons v tl =>
    obtain ⟨hv, htl⟩ := wfL_cons_parts hwf
    rw [jsizeL_cons] at hfuel
    rw [spacedData_cons, plinkList_cons]
    have hshape : ((' ' :: rEnc v ++ spacedData tl) ++ ')' :: rest)
        = ' ' :: (rEnc v ++ (spacedData tl ++ ')' :: rest)) := by simp
    rw [hshape, parseValues_cons_space]
    obtain ⟨f, rfl⟩ : ∃ f, fuel = f + 1 := ⟨fuel - 1, by omega⟩
    rw [parseValues_succ]
    obtain ⟨l, hl⟩ := rEnc_exists_cons v
    rw [hl, List.cons_append, skipWs_lparen]
    simp only [headIs_cons, List.isEmpty_cons]
    rw [if_neg (by decide)]
    simp only [Bool.false_eq_true, if_false]
    have hparse : parseIdOrLink f ('(' :: (l ++ (spacedData tl ++ ')' :: rest)))
        = .ok (plink v, spacedData tl ++ ')' :: rest) := by
      rw [← List.cons_append, ← hl]
      have hjv := jsize_pos v
      exact parse_rEnc v (spacedData tl ++ ')' :: rest) f hv (by omega)
        (nextOkB_spacedData tl rest)
    rw [hparse]
    simp only []
    have hjv := jsize_pos v
    rw [parse_spacedData tl rest f htl (by omega)]

theorem parse_spacedDataO : ∀ (entries : JObj) (rest : List Char) (fuel : Nat),
    JObj.wfO entries = true → 4 * jsizeO entries + 1 ≤ fuel →
    parseValues fuel (spacedDataO entries ++ ')' :: rest)
      = .ok (plinkObj entries, rest) := by
  intro entries rest fuel hwf hfuel
  match entries with
  | .nil =>
    rw [spacedDataO_nil, List.nil_append, plinkObj_nil]
    obtain ⟨f, rfl⟩ : ∃ f, fuel = f + 1 := ⟨fuel - 1, by omega⟩
    exact parseValues_rparen f rest
  | .cons k v tl =>
    obtain ⟨hv, htl⟩ := wfO_cons_parts hwf
    rw [jsizeO_cons] at hfuel
    rw [spacedDataO_cons, plinkObj_cons]
    have hjv := jsize_pos v
    -- the tail region after the pair
    have hshape : ((' ' :: ('(' :: rEnc (.str k) ++ ' ' :: rEnc v ++ [')'])
        ++ spacedDataO tl) ++ ')' :: rest)
        = ' ' :: ('(' :: (rEnc (.str k) ++ (' ' :: (rEnc v
          ++ (')' :: (spacedDataO tl ++ ')' :: rest)))))) := by
      simp
    rw [hshape, parseValues_cons_space]
    obtain ⟨f, rfl⟩ : ∃ f, fuel = f + 1 := ⟨fuel - 1, by omega⟩
    rw [parseValues_succ]
    rw [skipWs_lparen]
    simp only [headIs_cons, List.isEmpty_cons]
    rw [if_neg (by decide)]
    simp only [Bool.false_eq_true, if_false]
    -- parse the `((str k-b64) <v>)` pair link
    have hpair : parseIdOrLink f ('(' :: (rEnc (.str k) ++ (' ' :: (rEnc v
        ++ (')' :: (spacedDataO tl ++ ')' :: rest))))))
        = .ok (.mk none (.cons (pstr k) (.cons (plink v) .nil)),
            spacedDataO tl ++ ')' :: rest) := by
      obtain ⟨f1, rfl⟩ : ∃ a, f = a + 1 + 1 := ⟨f - 2, by omega⟩
      rw [parseIdOrLink_succ]
      simp only [skipWs_lparen, headIs_cons]
      rw [if_pos (by decide)]
      -- now parse_link on the pair body
      obtain ⟨lk, hlk⟩ := rEnc_exists_cons (.str k)
      obtain ⟨lv, hlv⟩ := rEnc_exists_cons v
      apply parseLink_first_parsed f1 (rEnc (.str k) ++ (' ' :: (rEnc v
        ++ (')' :: (spacedDataO tl ++ ')' :: rest)))))
        (' ' :: (rEnc v ++ (')' :: (spacedDataO tl ++ ')' :: rest))))
        (spacedDataO tl ++ ')' :: rest) (pstr k) (.cons (plink v) .nil)
      · rw [hlk, List.cons_append, skipWs_lparen]
      · rw [hlk, List.cons_append]
        rfl
      · obtain ⟨f2, rfl⟩ : ∃ a, f1 = a + 4 := ⟨f1 - 4, by omega⟩
        exact parseIdOrLink_str f2 k _
      · rw [skipWs_space, hlv, List.cons_append, skipWs_lparen]
        rfl
      · rw [parseValues_cons_space]
        obtain ⟨f2, rfl⟩ : ∃ a, f1 = a + 1 := ⟨f1 - 1, by omega⟩
        rw [parseValues_succ]
        rw [hlv, List.cons_append, skipWs_lparen]
        simp only [headIs_cons, List.isEmpty_cons]
        rw [if_neg (by decide)]
        simp only [Bool.false_eq_true, if_false]
        have hparse : parseIdOrLink f2 ('(' :: (lv ++ (')' :: (spacedDataO tl
            ++ ')' :: rest))))
            = .ok (plink v, ')' :: (spacedDataO tl ++ ')' :: rest)) := by
          rw [← List.cons_append, ← hlv]
          exact parse_rEnc v (')' :: (spacedDataO tl ++ ')' :: rest)) f2 hv (by omega)
            (nextOkB_rparen _)
        rw [hparse]
        simp only []
        obtain ⟨f3, rfl⟩ : ∃ a, f2 = a + 1 := ⟨f2 - 1, by omega⟩
        rw [parseValues_rparen]
    rw [hpair]
    simp only []
    rw [parse_spacedDataO tl rest f htl (by omega)]

end

/-! ### Decoding the parsed tree back to the value -/

def JObj.append : JObj → JObj → JObj
  | .nil, o => o
  | .cons k v tl, o => .cons k v (JObj.append tl o)

theorem JObj.append_nil (o : JObj) : JObj.append o .nil = o := by
  match o with
  | .nil => rfl
  | .cons k v tl => rw [JObj.append, JObj.append_nil tl]

theorem JObj.keys_append (a b : JObj) :
    (JObj.append a b).keys = a.keys ++ b.keys := by
  match a with
  | .nil => rfl
  | .cons k v tl =>
    rw [JObj.append, JObj.keys, JObj.keys, JObj.keys_append tl b, List.cons_append]

theorem objInsert_fresh (acc : JObj) (k : String) (v : JValue)
    (h : k ∉ acc.keys) : objInsert acc k v = JObj.append acc (.cons k v .nil) := by
  match acc with
  | .nil => rfl
  | .cons k' v' tl =>
    rw [objInsert, JObj.append]
    rw [JObj.keys, List.mem_cons] at h
    push_neg at h
    rw [if_neg (fun hc => h.1 hc.symm), objInsert_fresh tl k v h.2]

theorem JObj.append_snoc (acc : JObj) (k : String) (v : JValue) (tl : JObj) :
    JObj.append (JObj.append acc (.cons k v .nil)) tl =
      JObj.append acc (.cons k v tl) := by
  match acc with
  | .nil => rfl
  | .cons k' v' tl' =>
    rw [JObj.append, JObj.append, JObj.append, JObj.append_snoc tl' k v tl]

/-- Decoding the `str` tree gives back the original string: base64 and
UTF-8 both round-trip. -/
theorem decodeLink_pstr (s : String) : decodeLink (pstr s) = .ok (.str s) := by
  by_cases hs : s = ""
  · subst hs
    rfl
  · rw [pstr, if_neg hs]
    show (match b64Decode (b64OfString s).data with
      | none => Except.error "invalid base64"
      | some bytes =>
        match utf8DecodeBytes bytes with
        | none => Except.error "invalid utf-8 sequence"
        | some chars => Except.ok (JValue.str (String.mk chars))) = .ok (.str s)
    have hb : (b64OfString s).data = b64Encode (utf8Encode s.data) := rfl
    rw [hb, b64Decode_encode _ (utf8Encode_lt_256 s.data)]
    show (match utf8DecodeBytes (utf8Encode s.data) with
      | none => Except.error "invalid utf-8 sequence"
      | some chars => Except.ok (JValue.str (String.mk chars))) = .ok (.str s)
    rw [utf8DecodeBytes_utf8Encode]

mutual

theorem decodeLink_plink : ∀ (v : JValue), JValue.wf v = true →
    decodeLink (plink v) = .ok v := by
  intro v hwf
  match v with
  | .null => rfl
  | .bool b => cases b <;> rfl
  | .int n =>
    show Except.map JValue.int (parseI64 (intToString n)) = Except.ok (JValue.int n)
    rw [JValue.wf] at hwf
    simp only [Bool.and_eq_true, decide_eq_true_eq] at hwf
    rw [parseI64_intToString n hwf.1 hwf.2]
    rfl
  | .float tok =>
    rw [JValue.wf] at hwf
    simp only [Bool.and_eq_true] at hwf
    have hsyn : floatSyntaxOk tok = true := hwf.2
    show (if tok = "NaN" then Except.ok JValue.null
      else if tok = "Infinity" then Except.ok JValue.null
      else if tok = "-Infinity" then Except.ok JValue.null
      else if floatSyntaxOk tok then Except.ok (JValue.float tok)
      else if floatNonfiniteSpelling tok then Except.ok JValue.null
      else Except.error "invalid float literal") = .ok (.float tok)
    have h1 : tok ≠ "NaN" := by
      intro hc
      rw [hc] at hsyn
      exact absurd hsyn (by decide)
    have h2 : tok ≠ "Infinity" := by
      intro hc
      rw [hc] at hsyn
      exact absurd hsyn (by decide)
    have h3 : tok ≠ "-Infinity" := by
      intro hc
      rw [hc] at hsyn
      exact absurd hsyn (by decide)
    rw [if_neg h1, if_neg h2, if_neg h3, if_pos hsyn]
  | .str s =>
    rw [plink_str]
    exact decodeLink_pstr s
  | .arr items =>
    have hw := wf_arr_parts hwf
    show (match decodeArr (plinkList items) with
      | .error e => Except.error e
      | .ok its => Except.ok (JValue.arr its)) = .ok (.arr items)
    rw [decodeArr_plinkList items hw]
  | .obj entries =>
    obtain ⟨hnd, hw⟩ := wf_obj_parts hwf
    show (match decodeObjPairs (plinkObj entries) .nil with
      | .error e => Except.error e
      | .ok es => Except.ok (JValue.obj es)) = .ok (.obj entries)
    rw [decodeObj_plinkObj entries .nil hw (by simpa [JObj.keys] using hnd)]
    rfl

theorem decodeArr_plinkList : ∀ (items : JList), JList.wfL items = true →
    decodeArr (plinkList items) = .ok items := by
  intro items hwf
  match items with
  | .nil => rfl
  | .cons v tl =>
    obtain ⟨hv, htl⟩ := wfL_cons_parts hwf
    rw [plinkList_cons]
    show (match decodeLink (plink v) with
      | .error e => Except.error e
      | .ok x =>
        match decodeArr (plinkList tl) with
        | .error e => Except.error e
        | .ok xs => Except.ok (JList.cons x xs)) = .ok (.cons v tl)
    rw [decodeLink_plink v hv, decodeArr_plinkList tl htl]

theorem decodeObj_plinkObj : ∀ (entries : JObj) (acc : JObj),
    JObj.wfO entries = true → (acc.keys ++ entries.keys).Nodup →
    decodeObjPairs (plinkObj entries) acc = .ok (JObj.append acc entries) := by
  intro entries acc hwf hnd
  match entries with
  | .nil =>
    rw [plinkObj_nil]
    show Except.ok acc = _
    rw [JObj.append_nil]
  | .cons k v tl =>
    obtain ⟨hv, htl⟩ := wfO_cons_parts hwf
    rw [plinkObj_cons]
    show (match decodeLink (pstr k) with
      | .error e => Except.error e
      | .ok key =>
        match decodeLink (plink v) with
        | .error e => Except.error e
        | .ok val =>
          match key with
          | .str k' => decodeObjPairs (plinkObj tl) (objInsert acc k' val)
          | _ => decodeObjPairs (plinkObj tl) acc) = _
    rw [decodeLink_pstr k, decodeLink_plink v hv]
    show decodeObjPairs (plinkObj tl) (objInsert acc k v) = _
    have hk : k ∉ acc.keys := by
      rw [JObj.keys] at hnd
      intro hc
      have := (List.nodup_append.mp hnd).2.2
      exact this hc (by simp)
    rw [objInsert_fresh acc k v hk]
    rw [decodeObj_plinkObj tl (JObj.append acc (.cons k v .nil)) htl ?hnd2]
    case hnd2 =>
      rw [JObj.keys_append]
      rw [JObj.keys] at hnd
      simp only [JObj.keys]
      have : acc.keys ++ [k] ++ tl.keys = acc.keys ++ k :: tl.keys := by simp
      rw [this]
      exact hnd
    rw [JObj.append_snoc]

end

/-! ### Top-level assembly: `decode (encode v) = ok v` -/

/-- Every `encode_value` output has non-empty `values` and no id, so
`Link::format` renders it exactly as it renders as a child. -/
theorem encode_data (v : JValue) : (encode v).data = rEnc v := by
  cases v <;> rfl

theorem rEnc_shape (v : JValue) : ∃ m, rEnc v = '(' :: m ++ [')'] := by
  have key : ∀ (h : Link) (t : LinkList),
      (fmtChild (.mk none (.cons h t))).data
        = '(' :: (joinSpace (fmtChild h :: fmtValues t)).data ++ [')'] := by
    intro h t
    rw [fmtChild_none_cons, String.data_append, String.data_append]
    simp
  cases v with
  | null => exact ⟨_, key _ _⟩
  | bool b => exact ⟨_, key _ _⟩
  | int n => exact ⟨_, key _ _⟩
  | float tok => exact ⟨_, key _ _⟩
  | str s => exact ⟨_, key _ _⟩
  | arr items => exact ⟨_, key _ _⟩
  | obj entries => exact ⟨_, key _ _⟩

theorem dropWhile_ws_head {c : Char} (l : List Char) (h : rustIsWhitespace c = false) :
    List.dropWhile (rustIsWhitespace ·) (c :: l) = c :: l := by
  rw [List.dropWhile_cons]
  simp [h]

theorem rustTrim_paren (m : List Char) :
    rustTrim (String.mk ('(' :: m ++ [')'])) = String.mk ('(' :: m ++ [')']) := by
  unfold rustTrim
  show String.mk (((('(' :: m ++ [')']).dropWhile
    (rustIsWhitespace ·)).reverse.dropWhile (rustIsWhitespace ·)).reverse)
    = String.mk ('(' :: m ++ [')'])
  have h1 : ('(' :: m ++ [')']).dropWhile (rustIsWhitespace ·) = '(' :: m ++ [')'] := by
    have : ('(' :: m) ++ [')'] = '(' :: (m ++ [')']) := by simp
    rw [this]
    exact dropWhile_ws_head _ (by decide)
  rw [h1]
  have h2 : ('(' :: m ++ [')']).reverse = ')' :: (m.reverse ++ ['(']) := by
    simp
  rw [h2]
  rw [dropWhile_ws_head _ (by decide)]
  rw [← h2, List.reverse_reverse]

/-! Fuel bound: the top-level fuel `3 * length + 16` always covers the
`4 * jsize` requirement of the parsing theorem. -/

mutual

theorem jsize_le_rEnc_length : ∀ (v : JValue), 4 * jsize v ≤ (rEnc v).length := by
  intro v
  match v with
  | .null =>
    rw [jsize_scalar.1, rEnc_null]
    decide
  | .bool b =>
    rw [jsize_scalar.2.1 b, rEnc_bool b]
    cases b <;> simp
  | .int n =>
    rw [jsize_scalar.2.2.1 n, rEnc_int n]
    simp
  | .float tok =>
    rw [jsize_scalar.2.2.2.1 tok]
    have hraw : rEnc (.float tok)
        = '(' :: ("float".data ++ ' ' :: (escape_reference tok).data ++ [')']) := by
      unfold rEnc
      show (fmtChild (.mk none (.cons (Link.new "float")
        (.cons (Link.new tok) .nil)))).data = _
      rw [fmtChild_none_cons, fmtChild_token, fmtValues_cons, fmtChild_token, fmtValues_nil,
        escape_reference_good "float" (by decide)]
      rw [String.data_append, String.data_append, joinSpace_data]
      simp [spacedL]
    rw [hraw]
    simp
  | .str s =>
    rw [jsize_scalar.2.2.2.2 s, rEnc_str s]
    simp
  | .arr items =>
    rw [jsize_arr, rEnc_arr]
    have := jsizeL_le_spacedData_length items
    simp only [List.length_cons, List.length_append]
    omega
  | .obj entries =>
    rw [jsize_obj, rEnc_obj]
    have := jsizeO_le_spacedDataO_length entries
    simp only [List.length_cons, List.length_append]
    omega

theorem jsizeL_le_spacedData_length : ∀ (items : JList),
    4 * jsizeL items ≤ (spacedData items).length := by
  intro items
  match items with
  | .nil =>
    rw [jsizeL_nil, spacedData_nil]
    decide
  | .cons v tl =>
    rw [jsizeL_cons, spacedData_cons]
    have h1 := jsize_le_rEnc_length v
    have h2 := jsizeL_le_spacedData_length tl
    simp only [List.length_cons, List.length_append]
    omega

theorem jsizeO_le_spacedDataO_length : ∀ (entries : JObj),
    4 * jsizeO entries ≤ (spacedDataO entries).length := by
  intro entries
  match entries with
  | .nil =>
    rw [jsizeO_nil, spacedDataO_nil]
    decide
  | .cons k v tl =>
    rw [jsizeO_cons, spacedDataO_cons]
    have h1 := jsize_le_rEnc_length v
    have h2 := jsizeO_le_spacedDataO_length tl
    have h3 : 6 ≤ (rEnc (.str k)).length := by
      rw [rEnc_str]
      simp
    simp only [List.length_cons, List.length_append]
    omega

end

/-- The codec round-trip at the definitional core: decoding an encoded
representable value restores it exactly. -/
theorem decode_encode (v : JValue) (hwf : JValue.wf v = true) :
    decode (encode v) = .ok v := by
  have hlen := jsize_le_rEnc_length v
  have hF : 4 * jsize v ≤ parseFuel (rEnc v) + 1 := by
    unfold parseFuel
    omega
  have hparsed := parse_rEnc v [] (parseFuel (rEnc v) + 1) hwf hF rfl
  rw [List.append_nil] at hparsed
  obtain ⟨l0, hl0⟩ := rEnc_exists_cons v
  have hlink : parseLink (parseFuel (rEnc v)) (rEnc v) = .ok (plink v, []) := by
    rw [parseIdOrLink_succ] at hparsed
    rw [hl0] at hparsed ⊢
    rw [skipWs_lparen] at hparsed
    simp only [headIs_cons] at hparsed
    rw [if_pos (by decide)] at hparsed
    exact hparsed
  -- assemble `parseTopLink`
  obtain ⟨m, hm⟩ := rEnc_shape v
  have hstr : encode v = String.mk (rEnc v) := by
    cases henc : encode v with
    | mk data =>
      have : data = rEnc v := by
        rw [← encode_data v, henc]
      rw [this]
  have htrim : rustTrim (encode v) = encode v := by
    rw [hstr, hm, rustTrim_paren, ← hm]
  have htoplink : parseTopLink (encode v) = .ok (plink v) := by
    unfold parseTopLink
    rw [htrim]
    have hne : (encode v).data.isEmpty = false := by
      rw [encode_data, hl0]
      rfl
    show (if (encode v).data.isEmpty = true then Except.ok Link.empty
      else Except.map Prod.fst (parseLink (parseFuel (encode v).data) (encode v).data))
      = Except.ok (plink v)
    rw [hne]
    simp only [Bool.false_eq_true, if_false]
    rw [encode_data, hlink]
    rfl
  unfold decode
  rw [htoplink]
  exact decodeLink_plink v hwf

/-! ## Execution record store (`src/rust/src/lib/execution_store.rs`)

The persistent state is the primary file's contents, modelled as
`Option String` (`none` = file absent); the lock-acquisition outcome, the
clock, the pid-liveness probe and RFC-3339 time parsing are oracle inputs
passed explicitly.  I/O errors (unreadable file, failed write) are outside
the model; the secondary `clink`-backed store is write-only/best-effort in
the source and does not affect any claim. -/

inductive ExecutionStatus where
  | executing
  | executed
  deriving DecidableEq

/-- `#[serde(rename_all = "lowercase")]` on `ExecutionStatus`. -/
def ExecutionStatus.serde : ExecutionStatus → String
  | .executing => "executing"
  | .executed => "executed"

structure ExecutionRecord where
  uuid : String
  pid : Option Nat
  status : ExecutionStatus
  exit_code : Option Int
  command : String
  log_path : String
  start_time : String
  end_time : Option String
  working_directory : String
  shell : String
  platform : String
  options : List (String × JValue)
  deriving DecidableEq

def optNatJ : Option Nat → JValue
  | none => .null
  | some n => .int n

def optIntJ : Option Int → JValue
  | none => .null
  | some n => .int n

def optStrJ : Option String → JValue
  | none => .null
  | some s => .str s

def objOfList : List (String × JValue) → JObj
  | [] => .nil
  | (k, v) :: tl => .cons k v (objOfList tl)

def JObj.toList : JObj → List (String × JValue)
  | .nil => []
  | .cons k v tl => (k, v) :: tl.toList

/-- The object body of `ExecutionRecord::to_json`. -/
def recObj (r : ExecutionRecord) : JObj :=
  .cons "uuid" (.str r.uuid)
    (.cons "pid" (optNatJ r.pid)
    (.cons "status" (.str r.status.serde)
    (.cons "exitCode" (optIntJ r.exit_code)
    (.cons "command" (.str r.command)
    (.cons "logPath" (.str r.log_path)
    (.cons "startTime" (.str r.start_time)
    (.cons "endTime" (optStrJ r.end_time)
    (.cons "workingDirectory" (.str r.working_directory)
    (.cons "shell" (.str r.shell)
    (.cons "platform" (.str r.platform)
    (.cons "options" (.obj (objOfList r.options))
    .nil)))))))))))

/-- `ExecutionRecord::to_json` (`serde_json::to_value`): one object with
the struct's fields in declaration order under their camelCase names;
`Option` fields serialize as `null` when `None`.  (`options` is a
`HashMap`, whose iteration order Rust leaves unspecified; the model uses
the list order it stores.) -/
def ExecutionRecord.to_json (r : ExecutionRecord) : JValue :=
  .obj (recObj r)

/-- First-occurrence key lookup in a decoded object. -/
def jLookup : JObj → String → Option JValue
  | .nil, _ => none
  | .cons k' v tl, k => if k' = k then some v else jLookup tl k

def reqStrF (o : JObj) (k : String) : Option String :=
  match jLookup o k with
  | some (.str s) => some s
  | _ => none

/-- An optional `u32` field: missing or `null` gives `None`, an integer in
`u32` range gives `Some`, anything else is a deserialization error. -/
def optU32F (o : JObj) (k : String) : Option (Option Nat) :=
  match jLookup o k with
  | none => some none
  | some .null => some none
  | some (.int n) => if 0 ≤ n ∧ n < 2 ^ 32 then some (some n.toNat) else none
  | some _ => none

/-- An optional `i32` field. -/
def optI32F (o : JObj) (k : String) : Option (Option Int) :=
  match jLookup o k with
  | none => some none
  | some .null => some none
  | some (.int n) => if -(2 ^ 31) ≤ n ∧ n < 2 ^ 31 then some (some n) else none
  | some _ => none

def optStrF (o : JObj) (k : String) : Option (Option String) :=
  match jLookup o k with
  | none => some none
  | some .null => some none
  | some (.str s) => some (some s)
  | some _ => none

def statusF (o : JObj) (k : String) : Option ExecutionStatus :=
  match jLookup o k with
  | some (.str s) =>
    if s = "executing" then some .executing
    else if s = "executed" then some .executed
    else none
  | _ => none

/-- `#[serde(default)]` `options` field: missing gives the empty map, a
present value must be an object. -/
def optionsF (o : JObj) : Option (List (String × JValue)) :=
  match jLookup o "options" with
  | none => some []
  | some (.obj oo) => some oo.toList
  | some _ => none

/-- `ExecutionRecord::from_json` (`serde_json::from_value` with the derived
`Deserialize`): requires an object; required fields must be present with
the right type, `Option` fields default to `None` on `null`/missing,
unknown keys are ignored, and any mismatch makes the whole record fail
(`.ok()` collapses the error to `None`). -/
def ExecutionRecord.from_json (v : JValue) : Option ExecutionRecord :=
  match v with
  | .obj o =>
    match reqStrF o "uuid", optU32F o "pid", statusF o "status", optI32F o "exitCode",
      reqStrF o "command", reqStrF o "logPath", reqStrF o "startTime", optStrF o "endTime",
      reqStrF o "workingDirectory", reqStrF o "shell", reqStrF o "platform", optionsF o with
    | some uuid, some pid, some status, some exit_code, some command, some log_path,
      some start_time, some end_time, some working_directory, some shell, some platform,
      some options =>
      some (ExecutionRecord.mk uuid pid status exit_code command log_path start_time
        end_time working_directory shell platform options)
    | _, _, _, _, _, _, _, _, _, _, _, _ => none
  | _ => none

/-- Machine-range and key-uniqueness side conditions under which a record
is representable: `pid` fits `u32`, `exitCode` fits `i32`, and the open
`options` map has unique keys and representable values. -/
def ExecutionRecord.wfR (r : ExecutionRecord) : Bool :=
  (match r.pid with
   | none => true
   | some p => decide (p < 2 ^ 32)) &&
  (match r.exit_code with
   | none => true
   | some c => decide (-(2 ^ 31) ≤ c) && decide (c < 2 ^ 31)) &&
  decide (r.options.map Prod.fst).Nodup &&
  r.options.all (fun p => p.2.wf)

theorem objOfList_toList (l : List (String × JValue)) :
    (objOfList l).toList = l := by
  induction l with
  | nil => rfl
  | cons p tl ih =>
    cases p with
    | mk k v => rw [objOfList, JObj.toList, ih]

theorem from_json_to_json (r : ExecutionRecord) (hwf : r.wfR = true) :
    ExecutionRecord.from_json r.to_json = some r := by
  unfold ExecutionRecord.wfR at hwf
  simp only [Bool.and_eq_true, decide_eq_true_eq] at hwf
  obtain ⟨⟨⟨hpid, hexit⟩, hnd⟩, hvals⟩ := hwf
  have h1 : reqStrF (recObj r) "uuid" = some r.uuid := rfl
  have h2 : optU32F (recObj r) "pid" = some r.pid := by
    cases hp : r.pid with
    | none =>
      show optU32F (recObj r) "pid" = some none
      unfold optU32F recObj
      rw [hp]
      rfl
    | some p =>
      rw [hp] at hpid
      have hplt : p < 2 ^ 32 := by simpa using hpid
      show optU32F (recObj r) "pid" = some (some p)
      unfold optU32F recObj
      rw [hp]
      show (if (0 : Int) ≤ (p : Int) ∧ (p : Int) < 2 ^ 32
        then some (some ((p : Int)).toNat) else none) = some (some p)
      rw [if_pos ⟨by omega, by exact_mod_cast hplt⟩]
      simp
  have h3 : statusF (recObj r) "status" = some r.status := by
    cases hs : r.status with
    | executing =>
      unfold statusF recObj ExecutionStatus.serde
      rw [hs]
      rfl
    | executed =>
      unfold statusF recObj ExecutionStatus.serde
      rw [hs]
      rfl
  have h4 : optI32F (recObj r) "exitCode" = some r.exit_code := by
    cases hc : r.exit_code with
    | none =>
      unfold optI32F recObj
      rw [hc]
      rfl
    | some c =>
      rw [hc] at hexit
      have hcb : -(2 ^ 31) ≤ c ∧ c < 2 ^ 31 := by simpa using hexit
      unfold optI32F recObj
      rw [hc]
      show (if -(2 ^ 31) ≤ c ∧ c < 2 ^ 31 then some (some c) else none) = some (some c)
      rw [if_pos hcb]
  have h5 : reqStrF (recObj r) "command" = some r.command := rfl
  have h6 : reqStrF (recObj r) "logPath" = some r.log_path := rfl
  have h7 : reqStrF (recObj r) "startTime" = some r.start_time := rfl
  have h8 : optStrF (recObj r) "endTime" = some r.end_time := by
    cases he : r.end_time with
    | none =>
      unfold optStrF recObj
      rw [he]
      rfl
    | some e =>
      unfold optStrF recObj
      rw [he]
      rfl
  have h9 : reqStrF (recObj r) "workingDirectory" = some r.working_directory := rfl
  have h10 : reqStrF (recObj r) "shell" = some r.shell := rfl
  have h11 : reqStrF (recObj r) "platform" = some r.platform := rfl
  have h12 : optionsF (recObj r) = some r.options := by
    show some (objOfList r.options).toList = some r.options
    rw [objOfList_toList]
  show (match reqStrF (recObj r) "uuid", optU32F (recObj r) "pid",
      statusF (recObj r) "status", optI32F (recObj r) "exitCode",
      reqStrF (recObj r) "command", reqStrF (recObj r) "logPath",
      reqStrF (recObj r) "startTime", optStrF (recObj r) "endTime",
      reqStrF (recObj r) "workingDirectory", reqStrF (recObj r) "shell",
      reqStrF (recObj r) "platform", optionsF (recObj r) with
    | some uuid, some pid, some status, some exit_code, some command, some log_path,
      some start_time, some end_time, some working_directory, some shell, some platform,
      some options =>
      some (ExecutionRecord.mk uuid pid status exit_code command log_path start_time
        end_time working_directory shell platform options)
    | _, _, _, _, _, _, _, _, _, _, _, _ => none) = some r
  rw [h1, h2, h3, h4, h5, h6, h7, h8, h9, h10, h11, h12]

/-! ### The stored collection: `write_lino_records` / `read_lino_records` -/

theorem keys_objOfList (l : List (String × JValue)) :
    (objOfList l).keys = l.map Prod.fst := by
  induction l with
  | nil => rfl
  | cons p tl ih =>
    cases p with
    | mk k v =>
      rw [objOfList, JObj.keys, ih]
      rfl

theorem wfO_objOfList (l : List (String × JValue))
    (h : l.all (fun p => p.2.wf) = true) : (objOfList l).wfO = true := by
  induction l with
  | nil => rfl
  | cons p tl ih =>
    simp only [List.all_cons, Bool.and_eq_true] at h
    cases p with
    | mk k v =>
      show (v.wf && (objOfList tl).wfO) = true
      rw [h.1, ih h.2]
      rfl

set_option maxRecDepth 8192 in
theorem to_json_wf (r : ExecutionRecord) (hwf : r.wfR = true) :
    JValue.wf r.to_json = true := by
  unfold ExecutionRecord.wfR at hwf
  simp only [Bool.and_eq_true, decide_eq_true_eq] at hwf
  obtain ⟨⟨⟨hpid, hexit⟩, hnd⟩, hvals⟩ := hwf
  have hkeys : (recObj r).keys.Nodup := by
    show (["uuid", "pid", "status", "exitCode", "command", "logPath", "startTime",
      "endTime", "workingDirectory", "shell", "platform", "options"] : List String).Nodup
    decide
  have h1 : (optNatJ r.pid).wf = true := by
    cases hp : r.pid with
    | none => rw [optNatJ, JValue.wf]
    | some p =>
      rw [hp] at hpid
      have hplt : p < 2 ^ 32 := by simpa using hpid
      rw [optNatJ, JValue.wf]
      simp only [Bool.and_eq_true, decide_eq_true_eq]
      refine ⟨le_trans (by norm_num) (Int.natCast_nonneg p), ?_⟩
      have h32 : (p : Int) < 2 ^ 32 := by exact_mod_cast hplt
      exact lt_trans h32 (by norm_num)
  have h2 : (optIntJ r.exit_code).wf = true := by
    cases hc : r.exit_code with
    | none => rw [optIntJ, JValue.wf]
    | some c =>
      rw [hc] at hexit
      have hcb : -(2 ^ 31) ≤ c ∧ c < 2 ^ 31 := by simpa using hexit
      rw [optIntJ, JValue.wf]
      simp only [Bool.and_eq_true, decide_eq_true_eq]
      exact ⟨le_trans (by norm_num) hcb.1, lt_trans hcb.2 (by norm_num)⟩
  have h3 : (optStrJ r.end_time).wf = true := by
    cases r.end_time with
    | none => rw [optStrJ, JValue.wf]
    | some e => rw [optStrJ, JValue.wf]
  have h4 : JValue.wf (.obj (objOfList r.options)) = true := by
    rw [JValue.wf, wfO_objOfList _ hvals]
    simp only [Bool.and_true, decide_eq_true_eq, keys_objOfList]
    exact hnd
  rw [ExecutionRecord.to_json, JValue.wf, decide_eq_true hkeys, Bool.true_and, recObj]
  simp only [JObj.wfO, h1, h2, h3, h4, Bool.true_and]
  simp only [JValue.wf, Bool.true_and, Bool.and_true]

def jlistOf : List JValue → JList
  | [] => .nil
  | v :: tl => .cons v (jlistOf tl)

theorem jlistOf_toList (l : List JValue) : (jlistOf l).toList = l := by
  induction l with
  | nil => rfl
  | cons v tl ih => rw [jlistOf, JList.toList, ih]

/-- Machine-range/key-uniqueness side condition for a whole collection. -/
def WfRecords (rs : List ExecutionRecord) : Bool := rs.all ExecutionRecord.wfR

/-- The content `write_lino_records` produces:
`encode(Value::Array(records.map(to_json)))`. -/
def encodeRecords (rs : List ExecutionRecord) : String :=
  encode (.arr (jlistOf (rs.map ExecutionRecord.to_json)))

theorem wf_arr_records (rs : List ExecutionRecord) (h : WfRecords rs = true) :
    JValue.wf (.arr (jlistOf (rs.map ExecutionRecord.to_json))) = true := by
  unfold WfRecords at h
  induction rs with
  | nil => rw [List.map_nil, jlistOf, JValue.wf, JList.wfL]
  | cons r tl ih =>
    simp only [List.all_cons, Bool.and_eq_true] at h
    rw [List.map_cons, jlistOf, JValue.wf, JList.wfL, to_json_wf r h.1, Bool.true_and]
    rw [JValue.wf] at ih
    exact ih h.2

/-- `ExecutionStore::read_lino_records`: absent file, blank file, decode
failure and non-array decode all give the empty collection; an array keeps
exactly the elements that deserialize, in order. -/
def readLinoRecords (file : Option String) : List ExecutionRecord :=
  match file with
  | none => []
  | some content =>
    if (rustTrim content).data.isEmpty then []
    else
      match decode content with
      | .ok (.arr items) => items.toList.filterMap ExecutionRecord.from_json
      | .ok _ => []
      | .error _ => []

theorem filterMap_from_to (rs : List ExecutionRecord) (h : WfRecords rs = true) :
    (rs.map ExecutionRecord.to_json).filterMap ExecutionRecord.from_json = rs := by
  unfold WfRecords at h
  induction rs with
  | nil => rfl
  | cons r tl ih =>
    simp only [List.all_cons, Bool.and_eq_true] at h
    rw [List.map_cons, List.filterMap_cons, from_json_to_json r h.1, ih h.2]

theorem readLinoRecords_encodeRecords (rs : List ExecutionRecord)
    (h : WfRecords rs = true) :
    readLinoRecords (some (encodeRecords rs)) = rs := by
  have hwf := wf_arr_records rs h
  have hdec := decode_encode _ hwf
  obtain ⟨m, hm⟩ := rEnc_shape (.arr (jlistOf (rs.map ExecutionRecord.to_json)))
  have hstr : encodeRecords rs =
      String.mk (rEnc (.arr (jlistOf (rs.map ExecutionRecord.to_json)))) := by
    unfold encodeRecords
    cases henc : encode (.arr (jlistOf (rs.map ExecutionRecord.to_json))) with
    | mk data =>
      have : data = rEnc (.arr (jlistOf (rs.map ExecutionRecord.to_json))) := by
        rw [← encode_data, henc]
      rw [this]
  have htrim : rustTrim (encodeRecords rs) = encodeRecords rs := by
    rw [hstr, hm, rustTrim_paren]
  have hne : (rustTrim (encodeRecords rs)).data.isEmpty = false := by
    rw [htrim, hstr, hm]
    rfl
  simp only [readLinoRecords]
  rw [hne]
  simp only [Bool.false_eq_true, if_false]
  unfold encodeRecords
  rw [hdec]
  show (jlistOf (rs.map ExecutionRecord.to_json)).toList.filterMap
    ExecutionRecord.from_json = rs
  rw [jlistOf_toList, filterMap_from_to rs h]

/-! ### Store operations

`save`, `get`, `get_all`, `get_by_status`, `get_recent`, `get_stats`,
`delete`, `clear` and `cleanup_stale`, over the file state.  The lock
outcome of `LockManager::acquire` is an oracle `Bool` (its success depends
on other processes and real time); each operation returns its result
together with the file state it leaves behind. -/

/-- The in-place update inside `ExecutionStore::save`: replace the first
record with the same `uuid`, else push at the end. -/
def upsertRecord : List ExecutionRecord → ExecutionRecord → List ExecutionRecord
  | [], r => [r]
  | q :: tl, r => if q.uuid = r.uuid then r :: tl else q :: upsertRecord tl r

/-- `ExecutionStore::save`: lock, read, upsert by `uuid`, write the whole
collection.  A lock failure returns the error before touching the file. -/
def saveOp (lockOk : Bool) (file : Option String) (r : ExecutionRecord) :
    Except String Unit × Option String :=
  if lockOk then
    (.ok (), some (encodeRecords (upsertRecord (readLinoRecords file) r)))
  else
    (.error "Failed to acquire lock for database write", file)

/-- `ExecutionStore::get`. -/
def getOp (file : Option String) (uuid : String) : Option ExecutionRecord :=
  (readLinoRecords file).find? (fun r => r.uuid == uuid)

/-- `ExecutionStore::get_all`. -/
def getAllOp (file : Option String) : List ExecutionRecord :=
  readLinoRecords file

/-- `ExecutionStore::get_by_status`. -/
def getByStatusOp (file : Option String) (status : ExecutionStatus) :
    List ExecutionRecord :=
  (readLinoRecords file).filter (fun r => r.status == status)

/-- Insertion step of a stable descending sort by `start_time`: the new
element goes after every already-placed element with an equal or larger
key. -/
def insertByStart (r : ExecutionRecord) : List ExecutionRecord → List ExecutionRecord
  | [] => [r]
  | x :: xs =>
    if x.start_time < r.start_time then r :: x :: xs else x :: insertByStart r xs

/-- `records.sort_by(|a, b| b.start_time.cmp(&a.start_time))`: Rust's
`sort_by` is a stable sort, modelled by a stable insertion sort (same
specification, hence the same list). -/
def sortByStartDesc (l : List ExecutionRecord) : List ExecutionRecord :=
  l.foldl (fun acc r => insertByStart r acc) []

/-- `ExecutionStore::get_recent`: sort descending by `start_time`, truncate. -/
def getRecentOp (file : Option String) (limit : Nat) : List ExecutionRecord :=
  (sortByStartDesc (readLinoRecords file)).take limit

structure ExecutionStats where
  total : Nat
  executing : Nat
  executed : Nat
  successful : Nat
  failed : Nat
  deriving DecidableEq

/-- `ExecutionStore::get_stats` (the db-path/`clink` bookkeeping fields are
outside the model). -/
def getStatsOp (file : Option String) : ExecutionStats :=
  let records := readLinoRecords file
  { total := records.length
    executing := (records.filter (fun r => r.status == .executing)).length
    executed := (records.filter (fun r => r.status == .executed)).length
    successful := (records.filter
      (fun r => r.status == .executed && r.exit_code == some 0)).length
    failed := (records.filter (fun r => r.status == .executed &&
      ((r.exit_code.map (fun c => c != 0)).getD false))).length }

/-- `ExecutionStore::delete`: lock, read, drop every record with the
`uuid`; only writes when something was dropped. -/
def deleteOp (lockOk : Bool) (file : Option String) (uuid : String) :
    Except String Bool × Option String :=
  if lockOk then
    let records := readLinoRecords file
    let filtered := records.filter (fun r => r.uuid != uuid)
    if filtered.length = records.length then (.ok false, file)
    else (.ok true, some (encodeRecords filtered))
  else
    (.error "Failed to acquire lock for database write", file)

/-- `ExecutionStore::clear`. -/
def clearOp (lockOk : Bool) (file : Option String) :
    Except String Unit × Option String :=
  if lockOk then (.ok (), some (encodeRecords []))
  else (.error "Failed to acquire lock for database write", file)

/-! ### Record construction and mutation -/

/-- The ambient inputs `ExecutionRecord::new` draws on: the fresh UUID,
`Utc::now().to_rfc3339()`, the current directory, `$SHELL` (already
defaulted to `/bin/sh`), and `std::env::consts::OS`. -/
structure NewEnv where
  uuid : String
  nowStr : String
  cwd : String
  shellVar : String
  osName : String

/-- `ExecutionRecord::new`. -/
def ExecutionRecord.new (env : NewEnv) (command : String) : ExecutionRecord :=
  { uuid := env.uuid, pid := none, status := .executing, exit_code := none,
    command := command, log_path := "", start_time := env.nowStr, end_time := none,
    working_directory := env.cwd, shell := env.shellVar, platform := env.osName,
    options := [] }

/-- `ExecutionRecordOptions` (all-`None` `Default` not needed separately). -/
structure ExecutionRecordOptions where
  uuid : Option String := none
  command : String := ""
  pid : Option Nat := none
  status : Option ExecutionStatus := none
  exit_code : Option Int := none
  log_path : Option String := none
  start_time : Option String := none
  end_time : Option String := none
  working_directory : Option String := none
  shell : Option String := none
  platform : Option String := none
  options : Option (List (String × JValue)) := none

def applyOpt {α β : Type} (o : Option α) (f : β → α → β) (b : β) : β :=
  match o with
  | none => b
  | some a => f b a

/-- `ExecutionRecord::with_options`: start from `new(options.command)` and
overwrite each field that the options set. -/
def ExecutionRecord.with_options (env : NewEnv) (o : ExecutionRecordOptions) :
    ExecutionRecord :=
  let r := ExecutionRecord.new env o.command
  let r := applyOpt o.uuid (fun r u => { r with uuid := u }) r
  let r := applyOpt o.pid (fun r p => { r with pid := some p }) r
  let r := applyOpt o.status (fun r s => { r with status := s }) r
  let r := applyOpt o.exit_code (fun r c => { r with exit_code := some c }) r
  let r := applyOpt o.log_path (fun r l => { r with log_path := l }) r
  let r := applyOpt o.start_time (fun r t => { r with start_time := t }) r
  let r := applyOpt o.end_time (fun r t => { r with end_time := some t }) r
  let r := applyOpt o.working_directory (fun r w => { r with working_directory := w }) r
  let r := applyOpt o.shell (fun r s => { r with shell := s }) r
  let r := applyOpt o.platform (fun r p => { r with platform := p }) r
  let r := applyOpt o.options (fun r os => { r with options := os }) r
  r

/-- `ExecutionRecord::complete`. -/
def ExecutionRecord.complete (r : ExecutionRecord) (exit_code : Int)
    (nowStr : String) : ExecutionRecord :=
  { r with
    status := .executed
    exit_code := some exit_code
    end_time := some nowStr }

/-- The spec's record-state invariant:
`status == Executed ⟺ exitCode and endTime present`. -/
def statusInvariant (r : ExecutionRecord) : Bool :=
  (r.status == .executed) == (r.exit_code.isSome && r.end_time.isSome)

/-! ### `cleanup_stale` -/

/-- Ambient inputs of `cleanup_stale` (a unix build, where the
`#[cfg(unix)]` pid probe is compiled in): the platform name, the
`libc::kill(pid, 0) != 0` probe, RFC-3339 parsing of `start_time` to a
Unix-epoch millisecond value, the current time in the same scale, and the
`to_rfc3339()` string written into transitioned records. -/
structure CleanupEnv where
  osName : String
  pidDead : Nat → Bool
  parseTime : String → Option Int
  now : Int
  nowStr : String

/-- `max_age_ms as i64`: a `u64` reinterpreted as `i64`, wrapping at
`2^63`. -/
def toI64wrap (u : Nat) : Int :=
  if u < 2 ^ 63 then (u : Int) else (u : Int) - 2 ^ 64

/-- The `#[cfg(unix)]` pid probe of `cleanup_stale`: a record is flagged
by it only when it carries a pid, its platform matches the running OS, and
`kill(pid, 0)` fails; a missing pid, a platform mismatch, or a live
process all leave the probe silent and fall through to the age check. -/
def pidStaleProbe (env : CleanupEnv) (r : ExecutionRecord) : Bool :=
  match r.pid with
  | some p => r.platform == env.osName && env.pidDead p
  | none => false

/-- The per-record staleness test of `cleanup_stale`: a dead same-platform
pid, else an RFC-3339 `start_time` whose age exceeds `max_age_ms as i64`
(an unparseable `start_time` is never stale by age). -/
def staleFlag (env : CleanupEnv) (maxAge : Nat) (r : ExecutionRecord) : Bool :=
  if pidStaleProbe env r then true
  else
    match env.parseTime r.start_time with
    | some t => decide (env.now - t > toI64wrap maxAge)
    | none => false

/-- The forced transition `cleanup_stale` applies at the found position:
`Executed`, exit code `-1`, `end_time = now`. -/
def transitionRec (nowStr : String) (r : ExecutionRecord) : ExecutionRecord :=
  { r with status := .executed, exit_code := some (-1), end_time := some nowStr }

/-- One iteration of the update loop: find the first record with the stale
record's `uuid` and transition it, counting one cleaned record when found. -/
def transitionFirst (nowStr : String) (u : String) :
    List ExecutionRecord → List ExecutionRecord × Nat
  | [] => ([], 0)
  | r :: tl =>
    if r.uuid = u then (transitionRec nowStr r :: tl, 1)
    else
      let p := transitionFirst nowStr u tl
      (r :: p.1, p.2)

/-- The whole update loop of `cleanup_stale`, over the stale records'
uuids in order. -/
def applyStale (nowStr : String) : List String → List ExecutionRecord →
    List ExecutionRecord × Nat
  | [], records => (records, 0)
  | u :: us, records =>
    let p := transitionFirst nowStr u records
    let q := applyStale nowStr us p.1
    (q.1, p.2 + q.2)

structure CleanupResult where
  cleaned : Nat
  records : List ExecutionRecord
  errors : List String
  deriving DecidableEq

/-- The candidate test of `cleanup_stale`: `Executing` status and the
staleness probe, with `options.max_age_ms.unwrap_or(24h)`. -/
def staleCand (env : CleanupEnv) (maxAgeMs : Option Nat)
    (r : ExecutionRecord) : Bool :=
  r.status == .executing &&
    staleFlag env (maxAgeMs.getD (24 * 60 * 60 * 1000)) r

/-- `ExecutionStore::cleanup_stale`: collect the stale `Executing`
records; on a dry run only report them; otherwise, when any exist, lock,
re-read, transition each found uuid and write back. -/
def cleanupStale (env : CleanupEnv) (lockOk : Bool) (file : Option String)
    (maxAgeMs : Option Nat) (dryRun : Bool) : CleanupResult × Option String :=
  let records := readLinoRecords file
  let stales := records.filter (staleCand env maxAgeMs)
  if !dryRun && !stales.isEmpty then
    if lockOk then
      let current := readLinoRecords file
      let p := applyStale env.nowStr (stales.map (fun r => r.uuid)) current
      ({ cleaned := p.2, records := stales, errors := [] },
        some (encodeRecords p.1))
    else
      ({ cleaned := 0
         records := stales
         errors := ["Failed to acquire lock for cleanup"] }, file)
  else if dryRun then
    ({ cleaned := stales.length, records := stales, errors := [] }, file)
  else
    ({ cleaned := 0, records := stales, errors := [] }, file)

/-! ### The write discipline of `write_lino_records` -/

/-- `fs::write` truncates the destination in place and then writes the new
bytes, so a lock-free reader that opens the file mid-write can observe any
prefix of the new contents (the empty truncated file included).  The list
of observable file states of one write. -/
def fsWriteStates (content : String) : List (Option String) :=
  (List.range (content.data.length + 1)).map
    (fun n => some (String.mk (content.data.take n)))

/-- The spec's "always fully parses or doesn't exist" condition on one
observable state. -/
def parsesOrAbsent (file : Option String) : Bool :=
  match file with
  | none => true
  | some s =>
    if (rustTrim s).data.isEmpty then true
    else
      match decode s with
      | .ok _ => true
      | .error _ => false

/-! ## The claims -/

/-- Claim C1: codec round-trip.  For every representable structured value
(null, booleans, `i64` integers, canonical finite float tokens, arbitrary
UTF-8 strings, nested lists, maps with unique string keys — `JValue.wf`),
`decode (encode v)` reconstructs `v` exactly. -/
theorem claim_C1_roundtrip (v : JValue) (hwf : JValue.wf v = true) :
    decode (encode v) = .ok v :=
  decode_encode v hwf

/-- Witness for C1 at a value exercising null, bool, a negative integer, a
float token, a non-ASCII string and a one-key map. -/
theorem claim_C1_roundtrip_witness :
    JValue.wf (.arr (.cons .null (.cons (.bool true) (.cons (.int (-7))
      (.cons (.float "1.5") (.cons (.str "é ")
      (.cons (.obj (.cons "k" (.int 0) .nil)) .nil))))))) = true ∧
    decode (encode (.arr (.cons .null (.cons (.bool true) (.cons (.int (-7))
      (.cons (.float "1.5") (.cons (.str "é ")
      (.cons (.obj (.cons "k" (.int 0) .nil)) .nil)))))))) =
      .ok (.arr (.cons .null (.cons (.bool true) (.cons (.int (-7))
      (.cons (.float "1.5") (.cons (.str "é ")
      (.cons (.obj (.cons "k" (.int 0) .nil)) .nil))))))) :=
  ⟨by decide, claim_C1_roundtrip _ (by decide)⟩

/-- Claim C2: the claimed write discipline does not hold of the code.
`write_lino_records` writes with `fs::write`, which truncates the primary
file in place and writes the new bytes through it, so the write is not an
atomic whole-file replacement: among the states a lock-free reader can
observe during the write of any saved collection is the one-byte prefix
`"("`, which is present but does not parse. -/
theorem claim_C2_write_not_atomic :
    some (String.mk ['(']) ∈ fsWriteStates (encodeRecords []) ∧
    parsesOrAbsent (some (String.mk ['('])) = false := by
  constructor
  · decide
  · decide

/-- Counterexample for C3: `ExecutionRecord::with_options` is part of the
public construction interface, and options that set `status: Executed`
while leaving `exit_code`/`end_time` unset produce a record violating
`status == Executed ⟺ exitCode and endTime present`. -/
theorem claim_C3_counterexample :
    statusInvariant (ExecutionRecord.with_options ⟨"u", "t", "d", "s", "os"⟩
      { command := "c", status := some .executed }) = false := by
  decide

/-- Claim C3 (amended): records made by `ExecutionRecord::new`, and records
mutated by `ExecutionRecord::complete` or by `cleanup_stale`'s forced
transition, satisfy `status == Executed ⟺ exitCode and endTime present`;
`with_options` is excluded, since it copies whatever the options say. -/
theorem claim_C3_invariant (env : NewEnv) (c : String) (r : ExecutionRecord)
    (code : Int) (nowStr : String) :
    statusInvariant (ExecutionRecord.new env c) = true ∧
    statusInvariant (ExecutionRecord.complete r code nowStr) = true ∧
    statusInvariant (transitionRec nowStr r) = true :=
  ⟨rfl, rfl, rfl⟩

/-- Claim C5: when the write lock cannot be acquired, `save` returns the
explicit lock error and the stored collection is untouched — it never
falls through to an unsynchronized write. -/
theorem claim_C5_lock_error (file : Option String) (r : ExecutionRecord) :
    saveOp false file r =
      (.error "Failed to acquire lock for database write", file) :=
  rfl

/-- Claim C6: content that fails to decode is treated as an empty
collection by every read operation, which returns normally. -/
theorem claim_C6_corrupt_read (s e : String) (hbad : decode s = .error e)
    (uuid : String) (st : ExecutionStatus) (n : Nat) :
    getOp (some s) uuid = none ∧ getAllOp (some s) = [] ∧
    getByStatusOp (some s) st = [] ∧ getRecentOp (some s) n = [] ∧
    getStatsOp (some s) = ⟨0, 0, 0, 0, 0⟩ := by
  have hread : readLinoRecords (some s) = [] := by
    simp only [readLinoRecords]
    cases h : (rustTrim s).data.isEmpty with
    | false =>
      simp only [h, Bool.false_eq_true, if_false]
      rw [hbad]
    | true =>
      rw [if_pos rfl]
  refine ⟨?_, ?_, ?_, ?_, ?_⟩
  · unfold getOp
    rw [hread]
    rfl
  · unfold getAllOp
    rw [hread]
  · unfold getByStatusOp
    rw [hread]
    rfl
  · unfold getRecentOp
    rw [hread]
    show List.take n ([] : List ExecutionRecord) = []
    exact List.take_nil
  · unfold getStatsOp
    rw [hread]
    rfl

/-- Witness for C6 at the unparseable content `"("`. -/
theorem claim_C6_corrupt_read_witness :
    decode "(" = .error "Expected identifier" ∧
    (getOp (some "(") "x" = none ∧ getAllOp (some "(") = [] ∧
     getByStatusOp (some "(") .executing = [] ∧ getRecentOp (some "(") 3 = [] ∧
     getStatsOp (some "(") = ⟨0, 0, 0, 0, 0⟩) :=
  ⟨by decide, claim_C6_corrupt_read "(" "Expected identifier" (by decide)
    "x" .executing 3⟩

/-- What the read path keeps from a decoded value: from a list, the
elements that deserialize, in order; from anything else, nothing. -/
def recordsOfValue : JValue → List ExecutionRecord
  | .arr items => items.toList.filterMap ExecutionRecord.from_json
  | _ => []

/-- Claim C10: when the file's content decodes to a list, the read path
keeps exactly the elements that deserialize to an `ExecutionRecord`, in
order, silently dropping the rest; content decoding to a non-list value
yields the empty collection. -/
theorem claim_C10_partial (s : String) (v : JValue) (hdec : decode s = .ok v)
    (hne : (rustTrim s).data.isEmpty = false) :
    readLinoRecords (some s) = recordsOfValue v := by
  simp only [readLinoRecords]
  rw [hne]
  simp only [Bool.false_eq_true, if_false]
  rw [hdec]
  cases v <;> rfl

/-- The spec's quoting trigger for C9, reading its "whitespace" as Unicode
whitespace (what `char::is_whitespace` accepts). -/
def specNeedsQuoting (t : String) : Bool :=
  t.data.any (fun c => c == ':' || c == '(' || c == ')' || rustIsWhitespace c ||
    c == '\'' || c == '"')

/-- The quoting trigger `escape_reference` actually tests: colon, parens,
space, tab, newline, carriage return, and the two quotes. -/
def codeNeedsQuoting (t : String) : Bool :=
  t.data.contains ':' || t.data.contains '(' || t.data.contains ')' ||
  t.data.contains ' ' || t.data.contains '\t' || t.data.contains '\n' ||
  t.data.contains '\r' || t.data.contains '\'' || t.data.contains '"'

theorem escQuoteChars_length (l : List Char) :
    l.length ≤ (escQuoteChars l).length := by
  induction l with
  | nil => exact Nat.le.refl
  | cons c tl ih =>
    rw [escQuoteChars]
    by_cases h : c = '\''
    · rw [if_pos h]
      simp only [List.length_cons]
      omega
    · rw [if_neg h]
      simp only [List.length_cons]
      omega

theorem contains_isEmpty_false {t : String} {c : Char}
    (hc : t.data.contains c = true) : t.data.isEmpty = false := by
  cases hd : t.data with
  | nil =>
    rw [hd] at hc
    exact Bool.noConfusion hc
  | cons a l => rfl

/-- Counterexample for C9: the code's quoting trigger checks only space,
tab, newline and carriage return, not Unicode whitespace, so a token
containing the whitespace character U+000B should be quoted by the claim
and is returned unchanged. -/
theorem claim_C9_counterexample :
    specNeedsQuoting (String.mk ['a', '\x0B', 'b']) = true ∧
    escape_reference (String.mk ['a', '\x0B', 'b']) =
      String.mk ['a', '\x0B', 'b'] :=
  ⟨by decide, by decide⟩

/-- Claim C9 (amended): `escape_reference` leaves a token unchanged when
it contains none of colon, parentheses, space/tab/newline/carriage-return,
or quotes; quotes it otherwise, preferring the quote character absent from
the token; and when both quote kinds occur, wraps it in single quotes with
embedded single quotes backslash-escaped. -/
theorem claim_C9_escaping (t : String) :
    (codeNeedsQuoting t = false → escape_reference t = t) ∧
    (codeNeedsQuoting t = true → escape_reference t ≠ t) ∧
    (t.data.contains '\'' = true → t.data.contains '"' = true →
      escape_reference t = "'" ++ String.mk (escQuoteChars t.data) ++ "'") ∧
    (t.data.contains '\'' = false → t.data.contains '"' = true →
      escape_reference t = "'" ++ t ++ "'") ∧
    (t.data.contains '\'' = true → t.data.contains '"' = false →
      escape_reference t = "\"" ++ t ++ "\"") ∧
    (t.data.contains '\'' = false → t.data.contains '"' = false →
      codeNeedsQuoting t = true → escape_reference t = "'" ++ t ++ "'") := by
  have hBoth : t.data.contains '\'' = true → t.data.contains '"' = true →
      escape_reference t = "'" ++ String.mk (escQuoteChars t.data) ++ "'" := by
    intro hS hD
    simp only [escape_reference, contains_isEmpty_false hS, Bool.false_eq_true,
      if_false, hS, hD]
    rfl
  have hDbl : t.data.contains '\'' = false → t.data.contains '"' = true →
      escape_reference t = "'" ++ t ++ "'" := by
    intro hS hD
    simp only [escape_reference, contains_isEmpty_false hD, Bool.false_eq_true,
      if_false, hS, hD]
    rfl
  have hSgl : t.data.contains '\'' = true → t.data.contains '"' = false →
      escape_reference t = "\"" ++ t ++ "\"" := by
    intro hS hD
    simp only [escape_reference, contains_isEmpty_false hS, Bool.false_eq_true,
      if_false, hS, hD]
    rfl
  have hOther : t.data.contains '\'' = false → t.data.contains '"' = false →
      codeNeedsQuoting t = true → escape_reference t = "'" ++ t ++ "'" := by
    intro hS hD hN
    unfold codeNeedsQuoting at hN
    rw [hS, hD] at hN
    simp only [Bool.or_false] at hN
    have hne : t.data.isEmpty = false := by
      simp only [Bool.or_eq_true] at hN
      rcases hN with ((((((h | h) | h) | h) | h) | h) | h) <;>
        exact contains_isEmpty_false h
    simp only [escape_reference, hne, Bool.false_eq_true, if_false, hS, hD, hN]
    rfl
  refine ⟨?_, ?_, hBoth, hDbl, hSgl, hOther⟩
  · intro hN
    unfold codeNeedsQuoting at hN
    simp only [Bool.or_eq_false_iff] at hN
    obtain ⟨⟨⟨⟨⟨⟨⟨⟨h1, h2⟩, h3⟩, h4⟩, h5⟩, h6⟩, h7⟩, h8⟩, h9⟩ := hN
    cases he : t.data.isEmpty with
    | true =>
      have hd : t.data = [] := by
        cases hdd : t.data with
        | nil => rfl
        | cons a l =>
          rw [hdd] at he
          exact Bool.noConfusion he
      cases t with
      | mk data =>
        simp only at hd
        rw [hd]
        rfl
    | false =>
      simp only [escape_reference, he, Bool.false_eq_true, if_false,
        h1, h2, h3, h4, h5, h6, h7, h8, h9]
      rfl
  · intro hN heq
    have key : ∀ (q : String) (x : String), q.data.length = 1 →
        ((q ++ x ++ q).data.length = x.data.length + 2) := by
      intro q x hq
      rw [String.data_append, String.data_append, List.length_append,
        List.length_append]
      omega
    cases hS : t.data.contains '\'' <;> cases hD : t.data.contains '"'
    · have h := hOther hS hD hN
      rw [h] at heq
      have hlen := congrArg (fun s => s.data.length) heq
      simp only at hlen
      rw [key "'" t rfl] at hlen
      omega
    · have h := hDbl hS hD
      rw [h] at heq
      have hlen := congrArg (fun s => s.data.length) heq
      simp only at hlen
      rw [key "'" t rfl] at hlen
      omega
    · have h := hSgl hS hD
      rw [h] at heq
      have hlen := congrArg (fun s => s.data.length) heq
      simp only at hlen
      rw [key "\"" t rfl] at hlen
      omega
    · have h := hBoth hS hD
      rw [h] at heq
      have hlen := congrArg (fun s => s.data.length) heq
      simp only at hlen
      rw [key "'" (String.mk (escQuoteChars t.data)) rfl] at hlen
      have h2 : (String.mk (escQuoteChars t.data)).data.length =
          (escQuoteChars t.data).length := rfl
      have h3 := escQuoteChars_length t.data
      omega

/-- Witness for C9: an unquotable token, a space-bearing token, and a
token with both quote kinds. -/
theorem claim_C9_escaping_witness :
    escape_reference "simple" = "simple" ∧
    escape_reference "a b" = "'" ++ "a b" ++ "'" ∧
    escape_reference (String.mk ['a', '\'', '"']) =
      "'" ++ String.mk (escQuoteChars (String.mk ['a', '\'', '"']).data) ++ "'" :=
  ⟨(claim_C9_escaping "simple").1 (by decide),
   (claim_C9_escaping "a b").2.2.2.2.2 (by decide) (by decide) (by decide),
   (claim_C9_escaping (String.mk ['a', '\'', '"'])).2.2.1 (by decide) (by decide)⟩

theorem upsertRecord_fresh (l : List ExecutionRecord) (r : ExecutionRecord)
    (h : ∀ q ∈ l, q.uuid ≠ r.uuid) : upsertRecord l r = l ++ [r] := by
  induction l with
  | nil => rfl
  | cons q tl ih =>
    rw [upsertRecord, if_neg (h q (List.mem_cons_self q tl)),
      ih (fun a ha => h a (List.mem_cons_of_mem q ha))]
    rfl

theorem upsertRecord_snoc (l : List ExecutionRecord) (r1 r2 : ExecutionRecord)
    (h : ∀ q ∈ l, q.uuid ≠ r2.uuid) (he : r1.uuid = r2.uuid) :
    upsertRecord (l ++ [r1]) r2 = l ++ [r2] := by
  induction l with
  | nil =>
    show upsertRecord [r1] r2 = [r2]
    rw [upsertRecord, if_pos he]
  | cons q tl ih =>
    show upsertRecord (q :: (tl ++ [r1])) r2 = q :: (tl ++ [r2])
    rw [upsertRecord, if_neg (h q (List.mem_cons_self q tl)),
      ih (fun a ha => h a (List.mem_cons_of_mem q ha))]

theorem filter_uuid_singleton (l : List ExecutionRecord) (r : ExecutionRecord)
    (h : ∀ q ∈ l, q.uuid ≠ r.uuid) :
    (l ++ [r]).filter (fun q => q.uuid == r.uuid) = [r] := by
  rw [List.filter_append]
  have h1 : l.filter (fun q => q.uuid == r.uuid) = [] :=
    List.filter_eq_nil_iff.mpr (fun a ha => by simpa using h a ha)
  rw [h1, List.nil_append]
  simp

/-- Claim C4: `save` upserts by `uuid`: on a collection without the uuid,
saving a record and then saving a mutated record with the same uuid leaves
the collection extended by exactly one record with that uuid, holding the
latest values. -/
theorem claim_C4_upsert (file : Option String) (r1 r2 : ExecutionRecord)
    (hwf : WfRecords (readLinoRecords file) = true)
    (h1 : r1.wfR = true) (h2 : r2.wfR = true)
    (huuid : r1.uuid = r2.uuid)
    (hfresh : ∀ q ∈ readLinoRecords file, q.uuid ≠ r2.uuid) :
    getAllOp (saveOp true (saveOp true file r1).2 r2).2
        = readLinoRecords file ++ [r2] ∧
    (getAllOp (saveOp true (saveOp true file r1).2 r2).2).filter
        (fun q => q.uuid == r2.uuid) = [r2] := by
  have hs1 : (saveOp true file r1).2
      = some (encodeRecords (upsertRecord (readLinoRecords file) r1)) := rfl
  have hu1 : upsertRecord (readLinoRecords file) r1
      = readLinoRecords file ++ [r1] :=
    upsertRecord_fresh _ _ (fun q hq => by
      rw [huuid]
      exact hfresh q hq)
  have hwf1 : WfRecords (readLinoRecords file ++ [r1]) = true := by
    unfold WfRecords at hwf ⊢
    rw [List.all_append, hwf]
    simp [h1]
  have hr1 : readLinoRecords (saveOp true file r1).2
      = readLinoRecords file ++ [r1] := by
    rw [hs1, hu1, readLinoRecords_encodeRecords _ hwf1]
  have hs2 : (saveOp true (saveOp true file r1).2 r2).2
      = some (encodeRecords
          (upsertRecord (readLinoRecords (saveOp true file r1).2) r2)) := rfl
  have hu2 : upsertRecord (readLinoRecords (saveOp true file r1).2) r2
      = readLinoRecords file ++ [r2] := by
    rw [hr1]
    exact upsertRecord_snoc _ _ _ hfresh huuid
  have hwf2 : WfRecords (readLinoRecords file ++ [r2]) = true := by
    unfold WfRecords at hwf ⊢
    rw [List.all_append, hwf]
    simp [h2]
  have hall : getAllOp (saveOp true (saveOp true file r1).2 r2).2
      = readLinoRecords file ++ [r2] := by
    unfold getAllOp
    rw [hs2, hu2, readLinoRecords_encodeRecords _ hwf2]
  exact ⟨hall, by
    rw [hall]
    exact filter_uuid_singleton _ _ hfresh⟩

/-- Witness for C4: an empty store, a fresh `Executing` record, then the
completed record under the same uuid. -/
theorem claim_C4_upsert_witness :
    getAllOp (saveOp true (saveOp true none
        ⟨"u", none, .executing, none, "c", "", "t", none, "", "", "", []⟩).2
        ⟨"u", none, .executed, some 0, "c", "", "t", some "e", "", "", "", []⟩).2
      = readLinoRecords none ++
        [⟨"u", none, .executed, some 0, "c", "", "t", some "e", "", "", "", []⟩] ∧
    (getAllOp (saveOp true (saveOp true none
        ⟨"u", none, .executing, none, "c", "", "t", none, "", "", "", []⟩).2
        ⟨"u", none, .executed, some 0, "c", "", "t", some "e", "", "", "", []⟩).2).filter
        (fun q => q.uuid ==
          (⟨"u", none, .executed, some 0, "c", "", "t", some "e", "", "", "", []⟩ :
            ExecutionRecord).uuid) =
      [⟨"u", none, .executed, some 0, "c", "", "t", some "e", "", "", "", []⟩] :=
  claim_C4_upsert none
    ⟨"u", none, .executing, none, "c", "", "t", none, "", "", "", []⟩
    ⟨"u", none, .executed, some 0, "c", "", "t", some "e", "", "", "", []⟩
    (by decide) (by decide) (by decide) rfl (by simp [readLinoRecords])

theorem transitionFirst_cons_ne (nowStr u : String) (r : ExecutionRecord)
    (l : List ExecutionRecord) (h : r.uuid ≠ u) :
    transitionFirst nowStr u (r :: l) =
      (r :: (transitionFirst nowStr u l).1, (transitionFirst nowStr u l).2) := by
  rw [transitionFirst, if_neg h]

theorem transitionFirst_cons_eq (nowStr u : String) (r : ExecutionRecord)
    (l : List ExecutionRecord) (h : r.uuid = u) :
    transitionFirst nowStr u (r :: l) = (transitionRec nowStr r :: l, 1) := by
  rw [transitionFirst, if_pos h]

theorem applyStale_skip (nowStr : String) (us : List String)
    (r : ExecutionRecord) : ∀ (l : List ExecutionRecord),
    (∀ u ∈ us, r.uuid ≠ u) →
    applyStale nowStr us (r :: l)
      = (r :: (applyStale nowStr us l).1, (applyStale nowStr us l).2) := by
  induction us with
  | nil =>
    intro l h
    rfl
  | cons u us' ih =>
    intro l h
    rw [applyStale, transitionFirst_cons_ne _ _ _ _ (h u (List.mem_cons_self u us')),
      ih (transitionFirst nowStr u l).1 (fun a ha => h a (List.mem_cons_of_mem u ha))]
    rw [applyStale]

theorem applyStale_filter (nowStr : String) (p : ExecutionRecord → Bool) :
    ∀ (l : List ExecutionRecord), (l.map (fun r => r.uuid)).Nodup →
    applyStale nowStr ((l.filter p).map (fun r => r.uuid)) l
      = (l.map (fun r => if p r then transitionRec nowStr r else r),
         (l.filter p).length) := by
  intro l
  induction l with
  | nil =>
    intro _
    rfl
  | cons r tl ih =>
    intro hnd
    rw [List.map_cons] at hnd
    have hhd := (List.nodup_cons.mp hnd).1
    have htl := (List.nodup_cons.mp hnd).2
    have hsub : ∀ u ∈ (tl.filter p).map (fun q => q.uuid),
        u ∈ tl.map (fun q => q.uuid) := by
      intro u hu
      obtain ⟨a, ha, hau⟩ := List.mem_map.mp hu
      exact List.mem_map.mpr ⟨a, List.mem_of_mem_filter ha, hau⟩
    cases hp : p r with
    | true =>
      simp only [List.filter_cons, hp, if_true, List.map_cons, List.length_cons]
      rw [applyStale, transitionFirst_cons_eq _ _ _ _ rfl]
      have hskip : ∀ u ∈ (tl.filter p).map (fun q => q.uuid),
          (transitionRec nowStr r).uuid ≠ u := by
        intro u hu he
        have hru : (transitionRec nowStr r).uuid = r.uuid := rfl
        rw [hru] at he
        exact hhd (he ▸ hsub u hu)
      rw [applyStale_skip _ _ _ tl hskip, ih htl]
      simp only [hp, if_true, Prod.mk.injEq]
      exact ⟨trivial, by omega⟩
    | false =>
      simp only [List.filter_cons, hp, Bool.false_eq_true, if_false, List.map_cons]
      have hskip : ∀ u ∈ (tl.filter p).map (fun q => q.uuid), r.uuid ≠ u := by
        intro u hu he
        exact hhd (he ▸ hsub u hu)
      rw [applyStale_skip _ _ _ tl hskip, ih htl]

theorem wfR_transitionRec (nowStr : String) (r : ExecutionRecord)
    (h : r.wfR = true) : (transitionRec nowStr r).wfR = true := by
  unfold ExecutionRecord.wfR at h ⊢
  simp only [Bool.and_eq_true] at h ⊢
  obtain ⟨⟨⟨hp, _⟩, hn⟩, hv⟩ := h
  exact ⟨⟨⟨hp, rfl⟩, hn⟩, hv⟩

theorem WfRecords_map_trans (nowStr : String) (c : ExecutionRecord → Bool)
    (l : List ExecutionRecord) (h : WfRecords l = true) :
    WfRecords (l.map (fun r => if c r then transitionRec nowStr r else r))
      = true := by
  unfold WfRecords at h ⊢
  induction l with
  | nil => rfl
  | cons x xs ih =>
    simp only [List.all_cons, Bool.and_eq_true] at h
    rw [List.map_cons, List.all_cons, ih h.2, Bool.and_true]
    cases hc : c x with
    | true =>
      rw [if_pos rfl]
      exact wfR_transitionRec nowStr x h.1
    | false =>
      rw [if_neg (by simp)]
      exact h.1

theorem mapIf_id (c : ExecutionRecord → Bool)
    (t : ExecutionRecord → ExecutionRecord) :
    ∀ (l : List ExecutionRecord), (∀ r ∈ l, c r = false) →
    l.map (fun r => if c r then t r else r) = l := by
  intro l h
  induction l with
  | nil => rfl
  | cons x xs ih =>
    rw [List.map_cons, h x (List.mem_cons_self x xs)]
    simp only [Bool.false_eq_true, if_false]
    rw [ih (fun a ha => h a (List.mem_cons_of_mem x ha))]

/-- The duplicate-uuid collection breaking C8 as stated. -/
def dupRec : ExecutionRecord :=
  ⟨"u", none, .executing, none, "c", "", "t", none, "", "", "", []⟩

/-- An environment under which `dupRec` is stale by age. -/
def dupEnv : CleanupEnv :=
  ⟨"linux", fun _ => false, fun _ => some 0, 100, "T"⟩

set_option maxRecDepth 1000000 in
/-- Counterexample for C8: on a collection holding two `Executing` records
with the same uuid, both stale, the dry run lists both as candidates, but
the live run's per-uuid `position` lookup transitions only the first
occurrence (twice), so a candidate record is left untransitioned — the dry
run's candidate list is not what the live run transitions. -/
theorem claim_C8_counterexample :
    (cleanupStale dupEnv true (some (encodeRecords [dupRec, dupRec]))
        (some 10) true).1.records = [dupRec, dupRec] ∧
    ((readLinoRecords (cleanupStale dupEnv true
        (some (encodeRecords [dupRec, dupRec])) (some 10) false).2).filter
      (fun r => r.status == .executing)).length = 1 := by
  constructor
  · decide
  · decide

/-- Claim C8 (amended): on a collection whose records have pairwise
distinct uuids, a dry run leaves the stored file unchanged, reports
exactly the candidate records (with their count), and those are exactly
the records the live run transitions: the live run's stored collection is
the original with each candidate replaced by its forced transition and
every other record untouched. -/
theorem claim_C8_dry_run (env : CleanupEnv) (lockOk : Bool)
    (file : Option String) (maxAgeMs : Option Nat)
    (hnd : ((readLinoRecords file).map (fun r => r.uuid)).Nodup)
    (hwf : WfRecords (readLinoRecords file) = true) :
    (cleanupStale env lockOk file maxAgeMs true).2 = file ∧
    (cleanupStale env lockOk file maxAgeMs true).1.records
      = (readLinoRecords file).filter (staleCand env maxAgeMs) ∧
    (cleanupStale env lockOk file maxAgeMs true).1.cleaned
      = ((readLinoRecords file).filter (staleCand env maxAgeMs)).length ∧
    readLinoRecords (cleanupStale env true file maxAgeMs false).2
      = (readLinoRecords file).map
          (fun r => if staleCand env maxAgeMs r then transitionRec env.nowStr r
            else r) ∧
    (cleanupStale env true file maxAgeMs false).1.records
      = (readLinoRecords file).filter (staleCand env maxAgeMs) := by
  refine ⟨rfl, rfl, rfl, ?_, ?_⟩
  · simp only [cleanupStale]
    cases hemp : ((readLinoRecords file).filter (staleCand env maxAgeMs)).isEmpty
      with
    | false =>
      simp only [hemp, Bool.not_false, Bool.true_and, Bool.not_false, if_true]
      rw [applyStale_filter env.nowStr (staleCand env maxAgeMs)
        (readLinoRecords file) hnd]
      exact readLinoRecords_encodeRecords _
        (WfRecords_map_trans env.nowStr _ _ hwf)
    | true =>
      have hfil : (readLinoRecords file).filter (staleCand env maxAgeMs) = [] := by
        cases hf : (readLinoRecords file).filter (staleCand env maxAgeMs) with
        | nil => rfl
        | cons a l =>
          rw [hf] at hemp
          exact Bool.noConfusion hemp
      simp only [hemp, Bool.not_true, Bool.and_false, Bool.false_eq_true, if_false]
      exact (mapIf_id _ _ _
        (fun r hr => by simpa using List.filter_eq_nil_iff.mp hfil r hr)).symm
  · simp only [cleanupStale]
    cases hemp : ((readLinoRecords file).filter (staleCand env maxAgeMs)).isEmpty
      with
    | false =>
      simp only [hemp, Bool.not_false, Bool.true_and, if_true]
    | true =>
      simp only [hemp, Bool.not_true, Bool.and_false, Bool.false_eq_true, if_false]

set_option maxRecDepth 1000000 in
/-- Witness for C8 on a one-record collection that is stale by age. -/
theorem claim_C8_dry_run_witness :
    (cleanupStale dupEnv true (some (encodeRecords [dupRec])) (some 10) true).2
      = some (encodeRecords [dupRec]) ∧
    (cleanupStale dupEnv true (some (encodeRecords [dupRec])) (some 10) true).1.records
      = (readLinoRecords (some (encodeRecords [dupRec]))).filter
          (staleCand dupEnv (some 10)) ∧
    (cleanupStale dupEnv true (some (encodeRecords [dupRec])) (some 10) true).1.cleaned
      = ((readLinoRecords (some (encodeRecords [dupRec]))).filter
          (staleCand dupEnv (some 10))).length ∧
    readLinoRecords (cleanupStale dupEnv true (some (encodeRecords [dupRec]))
        (some 10) false).2
      = (readLinoRecords (some (encodeRecords [dupRec]))).map
          (fun r => if staleCand dupEnv (some 10) r
            then transitionRec dupEnv.nowStr r else r) ∧
    (cleanupStale dupEnv true (some (encodeRecords [dupRec])) (some 10) false).1.records
      = (readLinoRecords (some (encodeRecords [dupRec]))).filter
          (staleCand dupEnv (some 10)) :=
  claim_C8_dry_run dupEnv true (some (encodeRecords [dupRec])) (some 10)
    (by decide) (by decide)

/-- Counterexample for C7: the claim quantifies over every `maxAgeMs`, but
`max_age_ms as i64` wraps: at `maxAgeMs = 2^63` the cast is `-2^63`, so an
`Executing` record of age `maxAgeMs - 1` (which the claim says is not
flagged) is flagged stale. -/
theorem claim_C7_counterexample :
    ¬ (∀ (maxAge : Nat) (env : CleanupEnv) (r : ExecutionRecord) (t : Int),
        r.status = .executing → r.pid = none →
        env.parseTime r.start_time = some t →
        env.now - t = (maxAge : Int) - 1 →
        staleFlag env maxAge r = false) := by
  intro h
  have h2 := h (2 ^ 63)
    { osName := "linux", pidDead := fun _ => false, parseTime := fun _ => some 0,
      now := 2 ^ 63 - 1, nowStr := "T" }
    { uuid := "u", pid := none, status := .executing, exit_code := none,
      command := "c", log_path := "", start_time := "s", end_time := none,
      working_directory := "", shell := "", platform := "", options := [] }
    0 rfl rfl rfl (by decide)
  exact absurd h2 (by decide)

/-- Claim C7 (amended): for `maxAgeMs < 2^63` (where `max_age_ms as i64`
does not wrap), an `Executing` record whose pid-liveness probe does not
already flag it — no pid, a platform mismatch, or a live process — and
whose `start_time` parses is flagged stale exactly when its age exceeds
`maxAgeMs`: age `maxAgeMs + 1` is flagged, age `maxAgeMs - 1` is not. -/
theorem claim_C7_age_boundary (maxAge : Nat) (hlt : maxAge < 2 ^ 63)
    (env : CleanupEnv) (r : ExecutionRecord) (t : Int)
    (_hst : r.status = .executing) (hpid : pidStaleProbe env r = false)
    (hpt : env.parseTime r.start_time = some t) :
    (env.now - t > (maxAge : Int) → staleFlag env maxAge r = true) ∧
    (env.now - t = (maxAge : Int) - 1 → staleFlag env maxAge r = false) ∧
    (env.now - t = (maxAge : Int) + 1 → staleFlag env maxAge r = true) := by
  have h0 : toI64wrap maxAge = (maxAge : Int) := by
    rw [toI64wrap, if_pos hlt]
  have hsf : staleFlag env maxAge r = decide (env.now - t > (maxAge : Int)) := by
    unfold staleFlag
    rw [hpid, hpt]
    show decide (env.now - t > toI64wrap maxAge) = decide (env.now - t > (maxAge : Int))
    simp only [h0]
  refine ⟨?_, ?_, ?_⟩
  · intro h
    rw [hsf, decide_eq_true h]
  · intro h
    rw [hsf, decide_eq_false (by omega)]
  · intro h
    rw [hsf, decide_eq_true (by omega)]

/-- Witness for C7 at `maxAgeMs = 1000` and a record of age 1001 ms whose
same-platform pid 5 is still alive, so the pid probe stays silent and the
age check decides. -/
theorem claim_C7_age_boundary_witness :
    ((1001 : Int) - 0 > (1000 : Nat) →
      staleFlag ⟨"linux", fun _ => false, fun _ => some 0, 1001, "T"⟩ 1000
        ⟨"u", some 5, .executing, none, "c", "", "s", none, "", "", "linux", []⟩
        = true) ∧
    ((1001 : Int) - 0 = (1000 : Nat) - 1 →
      staleFlag ⟨"linux", fun _ => false, fun _ => some 0, 1001, "T"⟩ 1000
        ⟨"u", some 5, .executing, none, "c", "", "s", none, "", "", "linux", []⟩
        = false) ∧
    ((1001 : Int) - 0 = (1000 : Nat) + 1 →
      staleFlag ⟨"linux", fun _ => false, fun _ => some 0, 1001, "T"⟩ 1000
        ⟨"u", some 5, .executing, none, "c", "", "s", none, "", "", "linux", []⟩
        = true) :=
  claim_C7_age_boundary 1000 (by decide)
    ⟨"linux", fun _ => false, fun _ => some 0, 1001, "T"⟩
    ⟨"u", some 5, .executing, none, "c", "", "s", none, "", "", "linux", []⟩
    0 rfl rfl rfl

/-- Witness for C10 at `"(array (int 5))"`: the single element is not a
record object, so the collection reads back empty. -/
theorem claim_C10_partial_witness :
    decode "(array (int 5))" = .ok (.arr (.cons (.int 5) .nil)) ∧
    readLinoRecords (some "(array (int 5))") =
      recordsOfValue (.arr (.cons (.int 5) .nil)) :=
  ⟨by decide, claim_C10_partial "(array (int 5))" (.arr (.cons (.int 5) .nil))
    (by decide) rfl⟩

end Start
